import Mathlib

/-!
Verification of the key-handling layer of a python ECDSA library
(`src/ecdsa/keys.py`).  The file embeds the code shallowly in Lean:
byte strings are lists of naturals (each below 256), machine integers are
`Nat`/`Int` with explicit modular reduction, and fallible operations return
`Except`.  Helper modules of the library that are not part of the provided
source (`util`, `numbertheory`, `ellipticcurve`, `ecdsa`, `rfc6979`, `der`,
`curves`) are modelled from the specification; every such definition carries
a doc comment saying so.
-/

set_option maxRecDepth 4000

/-- Errors surfaced by the key layer.  `malformedPoint` models
`MalformedPointError`, `unexpectedDER` models `der.UnexpectedDER`,
`badDigest` models `BadDigestError`, `rsZero` models `RSZeroError`,
`assertion` models a failed python `assert`, and `notFound` models the
`ValueError` of a failed substring search. -/
inductive KeyError where
  | malformedPoint
  | unexpectedDER
  | badDigest
  | rsZero
  | assertion
  | notFound
  deriving DecidableEq, Repr

/-- Modelled from the spec: `util.string_to_number` interprets a byte string
as a big-endian integer. -/
def string_to_number (s : List ℕ) : ℕ :=
  s.foldl (fun acc b => acc * 256 + b) 0

/-- Big-endian encoding of `num` on exactly `l` bytes (the low `l` bytes of
`num`); each produced byte is below 256 by construction. -/
def bigEndian : ℕ → ℕ → List ℕ
  | 0, _ => []
  | l + 1, num => bigEndian l (num / 256) ++ [num % 256]

/-- Fuel-driven byte length of a natural number (1 for 0). -/
def byteLenAux : ℕ → ℕ → ℕ
  | 0, _ => 1
  | fuel + 1, n => if n < 256 then 1 else 1 + byteLenAux fuel (n / 256)

/-- Number of bytes needed to write `n` in base 256 (1 for `n = 0`). -/
def byteLen (n : ℕ) : ℕ := byteLenAux n n

/-- Modelled from the spec: `util.orderlen`, the byte length of the curve
order, `baselen = ceil(bitlen(n)/8)`. -/
def orderlen (order : ℕ) : ℕ := byteLen order

/-- Modelled from the spec: `util.number_to_string num order` writes `num`
big-endian on `orderlen order` bytes, left-padded with zeros. -/
def number_to_string (num order : ℕ) : List ℕ :=
  bigEndian (orderlen order) num

/-- Fuel-driven extended Euclid: returns `(gcd, s)` with
`s * r0 ≡ gcd (mod r1-initial)` along the usual invariant. -/
def egcdAux : ℕ → ℕ → ℕ → ℤ → ℤ → ℕ × ℤ
  | 0, r0, _, s0, _ => (r0, s0)
  | fuel + 1, r0, r1, s0, s1 =>
    if r1 = 0 then (r0, s0)
    else egcdAux fuel r1 (r0 % r1) s1 (s0 - ((r0 / r1 : ℕ) : ℤ) * s1)

/-- Modelled from the spec: `numbertheory.inverse_mod a m`, the inverse of
`a` modulo `m` by the extended Euclidean algorithm (0 when it fails). -/
def inverse_mod (a m : ℕ) : ℕ :=
  if m ≤ 1 then 0
  else (((egcdAux (a + m + 1) a m 1 0).2) % (m : ℤ)).toNat

/-- Modelled from the spec: `numbertheory.square_root_mod_prime a p` returns
some `b` with `b * b ≡ a (mod p)` — here the least such `b` below `p` — and
fails (returns `none`, the `SquareRootError` of the source) when `a` is not
a quadratic residue modulo `p`. -/
def square_root_mod_prime (a p : ℕ) : Option ℕ :=
  (List.range p).find? (fun b => b * b % p == a)

/-- Parameter bundle of a named curve.  Modelled from the spec: the `curves`
registry records the field prime `p`, the coefficients `a`, `b` (integers,
as in the source, where e.g. `a = -3` is stored literally), the base point
`(Gx, Gy)`, the order `order` of the base point and the DER body bytes
`oid` of the curve's object identifier. -/
structure Curve where
  p : ℕ
  a : ℤ
  b : ℤ
  Gx : ℕ
  Gy : ℕ
  order : ℕ
  oid : List ℕ
  deriving DecidableEq, Repr

/-- Modelled from the spec: `curve.baselen = orderlen(order)`. -/
def Curve.baselen (c : Curve) : ℕ := orderlen c.order

/-- Modelled from the spec: `curve.verifying_key_length = 2 * baselen`. -/
def Curve.verifying_key_length (c : Curve) : ℕ := 2 * c.baselen

/-- Right-hand side `x^3 + a*x + b mod p` of the curve equation, computed as
in `VerifyingKey._from_compressed`:
`(pow(x, 3, p) + a * x + b) % p`. -/
def curveRHS (c : Curve) (x : ℕ) : ℕ :=
  ((((x ^ 3 % c.p : ℕ) : ℤ) + c.a * (x : ℤ) + c.b) % (c.p : ℤ)).toNat

/-- An affine point: `none` is the identity, `some (x, y)` an affine pair. -/
abbrev AffPoint := Option (ℕ × ℕ)

/-- Modelled from the spec: point addition by the standard short-Weierstrass
affine formulas (`ellipticcurve.Point.__add__`), the identity acting as the
neutral element. -/
def pointAdd (c : Curve) : AffPoint → AffPoint → AffPoint
  | none, q => q
  | some q, none => some q
  | some (x1, y1), some (x2, y2) =>
    if x1 = x2 ∧ (y1 + y2) % c.p = 0 then none
    else
      let l : ℤ :=
        if x1 = x2 then
          (3 * (x1 : ℤ) * x1 + c.a) * (inverse_mod (2 * y1 % c.p) c.p : ℤ)
        else
          ((y2 : ℤ) - y1) * (inverse_mod (((x2 : ℤ) - x1) % (c.p : ℤ)).toNat c.p : ℤ)
      let x3 : ℤ := (l * l - x1 - x2) % (c.p : ℤ)
      let y3 : ℤ := (l * ((x1 : ℤ) - x3) - y1) % (c.p : ℤ)
      some (x3.toNat, y3.toNat)

/-- Fuel-driven double-and-add. -/
def scalarMultAux (c : Curve) : ℕ → ℕ → AffPoint → AffPoint
  | 0, _, _ => none
  | fuel + 1, k, pt =>
    if k = 0 then none
    else
      let r := scalarMultAux c fuel (k / 2) (pointAdd c pt pt)
      if k % 2 = 1 then pointAdd c pt r else r

/-- Modelled from the spec: scalar multiplication `k * P` by double-and-add
(`ellipticcurve.Point.__mul__`). -/
def scalarMult (c : Curve) (k : ℕ) (pt : AffPoint) : AffPoint :=
  scalarMultAux c k k pt

/-- Modelled from the spec: `ecdsa.point_is_valid(generator, x, y)` — true
iff `(x, y)` lies in `[0,p) × [0,p)`, satisfies the curve equation, and
`n * (x, y)` is the identity. -/
def point_is_valid (c : Curve) (x y : ℕ) : Bool :=
  decide (x < c.p) && decide (y < c.p) &&
    (y * y % c.p == curveRHS c x) &&
    (scalarMult c c.order (some (x, y)) == none)

/-- A verifying key: curve plus affine public point, as built by
`VerifyingKey.from_public_point`. -/
structure VerifyingKey where
  curve : Curve
  point : ℕ × ℕ
  deriving DecidableEq, Repr

namespace VerifyingKey

/-- Embeds `VerifyingKey.from_public_point` (keys.py lines 39-46). -/
def from_public_point (pt : ℕ × ℕ) (curve : Curve) : VerifyingKey :=
  ⟨curve, pt⟩

/-- Embeds `VerifyingKey._raw_encode` (keys.py lines 187-191). -/
def raw_encode (vk : VerifyingKey) : List ℕ :=
  number_to_string vk.point.1 vk.curve.order ++
    number_to_string vk.point.2 vk.curve.order

/-- Embeds `VerifyingKey._compressed_encode` (keys.py lines 193-199). -/
def compressed_encode (vk : VerifyingKey) : List ℕ :=
  if vk.point.2 % 2 = 1 then 3 :: number_to_string vk.point.1 vk.curve.order
  else 2 :: number_to_string vk.point.1 vk.curve.order

/-- Embeds `VerifyingKey._hybrid_encode` (keys.py lines 201-206). -/
def hybrid_encode (vk : VerifyingKey) : List ℕ :=
  if vk.point.2 % 2 = 1 then 7 :: vk.raw_encode else 6 :: vk.raw_encode

/-- The four point encodings accepted by `VerifyingKey.to_string`. -/
inductive PointEncoding where
  | raw
  | uncompressed
  | compressed
  | hybrid
  deriving DecidableEq, Repr

/-- Embeds `VerifyingKey.to_string` (keys.py lines 208-220). -/
def to_string (vk : VerifyingKey) : PointEncoding → List ℕ
  | .raw => vk.raw_encode
  | .uncompressed => 4 :: vk.raw_encode
  | .hybrid => vk.hybrid_encode
  | .compressed => vk.compressed_encode

/-- Embeds `VerifyingKey._from_raw_encoding` (keys.py lines 48-62). -/
def from_raw_encoding (string : List ℕ) (curve : Curve)
    (validate_point : Bool) : Except KeyError (ℕ × ℕ) :=
  if string.length ≠ curve.verifying_key_length then .error .assertion
  else
    let xs := string.take curve.baselen
    let ys := string.drop curve.baselen
    let x := string_to_number xs
    let y := string_to_number ys
    if validate_point && !(point_is_valid curve x y) then
      .error .malformedPoint
    else .ok (x, y)

/-- Embeds `VerifyingKey._from_compressed` (keys.py lines 64-85). -/
def from_compressed (string : List ℕ) (curve : Curve)
    (validate_point : Bool) : Except KeyError (ℕ × ℕ) :=
  if string.take 1 ≠ [2] ∧ string.take 1 ≠ [3] then .error .malformedPoint
  else
    let is_even := string.take 1 = [2]
    let x := string_to_number (string.drop 1)
    let p := curve.p
    let alpha := curveRHS curve x
    match square_root_mod_prime alpha p with
    | none => .error .malformedPoint
    | some beta =>
      let y := if is_even = (beta % 2 = 1) then p - beta else beta
      if validate_point && !(point_is_valid curve x y) then
        .error .malformedPoint
      else .ok (x, y)

/-- Embeds `VerifyingKey._from_hybrid` (keys.py lines 87-100). -/
def from_hybrid (string : List ℕ) (curve : Curve)
    (validate_point : Bool) : Except KeyError (ℕ × ℕ) :=
  if string.take 1 ≠ [6] ∧ string.take 1 ≠ [7] then .error .assertion
  else
    match from_raw_encoding (string.drop 1) curve validate_point with
    | .error e => .error e
    | .ok pt =>
      if validate_point &&
          ((pt.2 % 2 = 1 && string.take 1 ≠ [7]) ||
            (!(pt.2 % 2 = 1) && string.take 1 ≠ [6])) then
        .error .malformedPoint
      else .ok pt

/-- Embeds `VerifyingKey.from_string` (keys.py lines 102-125); dispatches on
the length of the byte string and its leading byte. -/
def from_string (string : List ℕ) (curve : Curve)
    (validate_point : Bool := true) : Except KeyError VerifyingKey :=
  (if string.length = curve.verifying_key_length then
      from_raw_encoding string curve validate_point
    else if string.length = curve.verifying_key_length + 1 then
      if string.take 1 = [6] ∨ string.take 1 = [7] then
        from_hybrid string curve validate_point
      else if string.take 1 = [4] then
        from_raw_encoding (string.drop 1) curve validate_point
      else .error .malformedPoint
    else if string.length = curve.baselen + 1 then
      from_compressed string curve validate_point
    else .error .malformedPoint).map
    (fun point => from_public_point point curve)

end VerifyingKey

/-- A signing key: curve plus secret scalar, as built by
`SigningKey.from_secret_exponent`. -/
structure SigningKey where
  curve : Curve
  secexp : ℕ
  deriving DecidableEq, Repr

/-- The `r` of an ECDSA signature.  Modelled from the spec, section 4.3:
`r = x1 mod n` where `(x1, y1) = k * G` (`ecdsa.Private_key.sign`); an
identity result contributes `x1 = 0`. -/
def sig_r (c : Curve) (k : ℕ) : ℕ :=
  (match scalarMult c k (some (c.Gx, c.Gy)) with
    | none => 0
    | some q => q.1) % c.order

/-- The `s` of an ECDSA signature.  Modelled from the spec, section 4.3:
`s = k⁻¹ * (e + r * d) mod n` (`ecdsa.Private_key.sign`). -/
def sig_s (c : Curve) (secexp number k : ℕ) : ℕ :=
  inverse_mod k c.order * ((number + sig_r c k * secexp) % c.order) % c.order

/-- Modelled from the spec, section 4.3: `ecdsa.Private_key.sign` fails with
`RSZero` when `r = 0` or `s = 0` and otherwise returns `(r, s)`. -/
def Private_key_sign (c : Curve) (secexp number k : ℕ) :
    Except KeyError (ℕ × ℕ) :=
  if sig_r c k = 0 then .error .rsZero
  else if sig_s c secexp number k = 0 then .error .rsZero
  else .ok (sig_r c k, sig_s c secexp number k)

/-- Modelled from the spec: `util.randrange(order, entropy)` draws from the
supplied entropy source; the source is made explicit as an oracle `rng`. -/
def randrange (order : ℕ) (rng : ℕ → ℕ) : ℕ := rng order

namespace SigningKey

/-- Embeds `SigningKey.from_secret_exponent` (keys.py lines 270-285); the
python `assert 1 <= secexp < n` becomes an error result. -/
def from_secret_exponent (secexp : ℕ) (curve : Curve) :
    Except KeyError SigningKey :=
  if 1 ≤ secexp ∧ secexp < curve.order then .ok ⟨curve, secexp⟩
  else .error .assertion

/-- Embeds `SigningKey.from_string` (keys.py lines 287-291). -/
def from_string (string : List ℕ) (curve : Curve) :
    Except KeyError SigningKey :=
  if string.length ≠ curve.baselen then .error .assertion
  else from_secret_exponent (string_to_number string) curve

/-- Embeds `SigningKey.to_string` (keys.py lines 341-344). -/
def to_string (sk : SigningKey) : List ℕ :=
  number_to_string sk.secexp sk.curve.order

/-- Embeds `SigningKey.get_verifying_key` (keys.py lines 361-362): the
verifying key derived from the secret exponent, `Q = d * G`. -/
def get_verifying_key (sk : SigningKey) : VerifyingKey :=
  ⟨sk.curve,
    match scalarMult sk.curve sk.secexp (some (sk.curve.Gx, sk.curve.Gy)) with
    | none => (0, 0)
    | some q => q⟩

/-- Embeds `SigningKey.sign_number` (keys.py lines 426-443): a supplied `k`
is used directly, otherwise one is drawn from the entropy oracle; the python
`assert 1 <= _k < order` becomes an error result. -/
def sign_number (sk : SigningKey) (number : ℕ) (rng : ℕ → ℕ)
    (k : Option ℕ) : Except KeyError (ℕ × ℕ) :=
  let order := sk.curve.order
  let kk := match k with
    | some v => v
    | none => randrange order rng
  if 1 ≤ kk ∧ kk < order then Private_key_sign sk.curve sk.secexp number kk
  else .error .assertion

/-- Embeds `SigningKey.sign_digest` (keys.py lines 417-424). -/
def sign_digest {α : Type} (sk : SigningKey) (digest : List ℕ)
    (rng : ℕ → ℕ) (sigencode : ℕ → ℕ → ℕ → α) (k : Option ℕ) :
    Except KeyError α :=
  if sk.curve.baselen < digest.length then .error .badDigest
  else
    (sign_number sk (string_to_number digest) rng k).map
      (fun rs => sigencode rs.1 rs.2 sk.curve.order)

/-- Embeds `SigningKey.sign` (keys.py lines 400-415). -/
def sign {α : Type} (sk : SigningKey) (data : List ℕ) (rng : ℕ → ℕ)
    (hashfunc : List ℕ → List ℕ) (sigencode : ℕ → ℕ → ℕ → α)
    (k : Option ℕ) : Except KeyError α :=
  sign_digest sk (hashfunc data) rng sigencode k

end SigningKey

/-- Modelled from the spec: `util.sigencode_string r s order` writes `r` and
`s` each as `orderlen order` big-endian bytes, concatenated. -/
def sigencode_string (r s order : ℕ) : List ℕ :=
  number_to_string r order ++ number_to_string s order

/-- Modelled from the spec, section 4.6: `rfc6979.generate_k` derives a
nonce deterministically from `(order, secexp, hashfunc, digest, retry_gen,
extra_entropy)`; the HMAC-DRBG of RFC 6979 is abstracted as one application
of the supplied hash to the concatenated seed material, reduced into
`[1, order - 1]`, with distinct `retry_gen` values giving fresh candidates. -/
def rfc6979_generate_k (order secexp : ℕ) (hashfunc : List ℕ → List ℕ)
    (digest : List ℕ) (retry_gen : ℕ) (extra_entropy : List ℕ) : ℕ :=
  1 + string_to_number
        (hashfunc (number_to_string secexp order ++ digest ++
          extra_entropy ++ bigEndian 8 retry_gen)) % (order - 1)

/-- Embeds the local `simple_r_s` of `sign_digest_deterministic`
(keys.py lines 384-385). -/
def simple_r_s (r s order : ℕ) : ℕ × ℕ × ℕ := (r, s, order)

namespace SigningKey

/-- Embeds the retry loop of `SigningKey.sign_digest_deterministic`
(keys.py lines 387-397), with explicit fuel for the unbounded python
`while True` (`none` = fuel exhausted).  Only `RSZeroError` is caught and
retried with an incremented `retry_gen`; other errors propagate. -/
def deterministic_loop (sk : SigningKey) (digest : List ℕ)
    (hashfunc : List ℕ → List ℕ) (extra_entropy : List ℕ) (rng : ℕ → ℕ) :
    ℕ → ℕ → Option (Except KeyError (ℕ × ℕ × ℕ))
  | _, 0 => none
  | retry_gen, fuel + 1 =>
    let k := rfc6979_generate_k sk.curve.order sk.secexp hashfunc digest
      retry_gen extra_entropy
    match sign_digest sk digest rng simple_r_s (some k) with
    | .error .rsZero =>
      deterministic_loop sk digest hashfunc extra_entropy rng (retry_gen + 1) fuel
    | .error e => some (.error e)
    | .ok v => some (.ok v)

/-- Embeds `SigningKey.sign_digest_deterministic` (keys.py lines 374-398). -/
def sign_digest_deterministic {α : Type} (sk : SigningKey) (digest : List ℕ)
    (hashfunc : List ℕ → List ℕ) (sigencode : ℕ → ℕ → ℕ → α)
    (extra_entropy : List ℕ) (rng : ℕ → ℕ) (fuel : ℕ) :
    Option (Except KeyError α) :=
  (deterministic_loop sk digest hashfunc extra_entropy rng 0 fuel).map
    (Except.map (fun v => sigencode v.1 v.2.1 v.2.2))

/-- Embeds `SigningKey.sign_deterministic` (keys.py lines 364-372). -/
def sign_deterministic {α : Type} (sk : SigningKey) (data : List ℕ)
    (hashfunc : List ℕ → List ℕ) (sigencode : ℕ → ℕ → ℕ → α)
    (extra_entropy : List ℕ) (rng : ℕ → ℕ) (fuel : ℕ) :
    Option (Except KeyError α) :=
  sign_digest_deterministic sk (hashfunc data) hashfunc sigencode
    extra_entropy rng fuel

end SigningKey

/-- Minimal big-endian byte representation of `l` (no leading zero byte). -/
def bytesOfNat (l : ℕ) : List ℕ := bigEndian (byteLen l) l

/-- Modelled from the spec, section 4.9: DER length encoding — short form
below 128, otherwise long form with a byte-count marker. -/
def encode_length (l : ℕ) : List ℕ :=
  if l < 128 then [l]
  else (128 + (bytesOfNat l).length) :: bytesOfNat l

/-- Modelled from the spec, section 4.9: DER length parsing; enforces the
length-prefix discipline and rejects non-minimal encodings. -/
def read_length (s : List ℕ) : Except KeyError (ℕ × List ℕ) :=
  match s with
  | [] => .error .unexpectedDER
  | b :: rest =>
    if b < 128 then .ok (b, rest)
    else
      let n := b - 128
      if n = 0 then .error .unexpectedDER
      else if rest.length < n then .error .unexpectedDER
      else
        let ds := rest.take n
        if ds.take 1 = [0] then .error .unexpectedDER
        else
          let l := string_to_number ds
          if l < 128 then .error .unexpectedDER
          else .ok (l, rest.drop n)

/-- Modelled from the spec, section 4.9: a DER tag-length-value block. -/
def encode_tlv (tag : ℕ) (content : List ℕ) : List ℕ :=
  tag :: encode_length content.length ++ content

/-- Modelled from the spec, section 4.9: removes one tag-length-value block
with the expected tag, returning its contents and the remaining bytes. -/
def remove_tlv (tag : ℕ) (s : List ℕ) :
    Except KeyError (List ℕ × List ℕ) :=
  match s with
  | [] => .error .unexpectedDER
  | t :: rest =>
    if t ≠ tag then .error .unexpectedDER
    else
      match read_length rest with
      | .error e => .error e
      | .ok (l, rest2) =>
        if rest2.length < l then .error .unexpectedDER
        else .ok (rest2.take l, rest2.drop l)

/-- Modelled from the spec: `der.encode_sequence` (tag 0x30); the pieces are
passed pre-concatenated. -/
def encode_sequence (content : List ℕ) : List ℕ := encode_tlv 48 content

/-- Modelled from the spec: `der.remove_sequence`. -/
def remove_sequence (s : List ℕ) : Except KeyError (List ℕ × List ℕ) :=
  remove_tlv 48 s

/-- Modelled from the spec: `der.encode_octet_string` (tag 0x04). -/
def encode_octet_string (content : List ℕ) : List ℕ := encode_tlv 4 content

/-- Modelled from the spec: `der.remove_octet_string`. -/
def remove_octet_string (s : List ℕ) : Except KeyError (List ℕ × List ℕ) :=
  remove_tlv 4 s

/-- Modelled from the spec: `der.encode_bitstring` (tag 0x03); the caller
prepends the zero unused-bits octet itself, as in the source. -/
def encode_bitstring (content : List ℕ) : List ℕ := encode_tlv 3 content

/-- Modelled from the spec: `der.remove_bitstring`. -/
def remove_bitstring (s : List ℕ) : Except KeyError (List ℕ × List ℕ) :=
  remove_tlv 3 s

/-- Modelled from the spec: `der.encode_integer` for non-negative values; a
leading zero byte is added when the top bit of the first byte is set. -/
def encode_integer (n : ℕ) : List ℕ :=
  if 128 ≤ (bytesOfNat n).headD 0 then encode_tlv 2 (0 :: bytesOfNat n)
  else encode_tlv 2 (bytesOfNat n)

/-- Modelled from the spec: `der.remove_integer`; rejects an empty body, a
negative value and a superfluous leading zero byte. -/
def remove_integer (s : List ℕ) : Except KeyError (ℕ × List ℕ) :=
  match remove_tlv 2 s with
  | .error e => .error e
  | .ok (body, rest) =>
    match body with
    | [] => .error .unexpectedDER
    | [b] => if 128 ≤ b then .error .unexpectedDER else .ok (b, rest)
    | b1 :: b2 :: tl =>
      if 128 ≤ b1 then .error .unexpectedDER
      else if b1 = 0 ∧ b2 < 128 then .error .unexpectedDER
      else .ok (string_to_number (b1 :: b2 :: tl), rest)

/-- Modelled from the spec: `der.encode_constructed tag content`
(context-specific constructed tag `0xa0 + tag`). -/
def encode_constructed (tag : ℕ) (content : List ℕ) : List ℕ :=
  encode_tlv (160 + tag) content

/-- Modelled from the spec: `der.remove_constructed`, returning the context
tag, the contents and the remaining bytes. -/
def remove_constructed (s : List ℕ) :
    Except KeyError (ℕ × List ℕ × List ℕ) :=
  match s with
  | [] => .error .unexpectedDER
  | t :: _ =>
    if 160 ≤ t ∧ t < 192 then
      match remove_tlv t s with
      | .error e => .error e
      | .ok (body, rest) => .ok (t - 160, body, rest)
    else .error .unexpectedDER

/-- Modelled from the spec: `der.remove_object`; object identifiers are
represented by their DER body bytes (tag 0x06). -/
def remove_object (s : List ℕ) : Except KeyError (List ℕ × List ℕ) :=
  remove_tlv 6 s

/-- Modelled from the spec: `util.oid_ecPublicKey` — the body bytes of the
object identifier 1.2.840.10045.2.1. -/
def oid_ecPublicKey : List ℕ := [42, 134, 72, 206, 61, 2, 1]

/-- Modelled from the spec: `util.encoded_oid_ecPublicKey`. -/
def encoded_oid_ecPublicKey : List ℕ := encode_tlv 6 oid_ecPublicKey

/-- Modelled from the spec: `curve.encoded_oid`, the full DER object
identifier of the curve. -/
def Curve.encoded_oid (c : Curve) : List ℕ := encode_tlv 6 c.oid

/-- Modelled from the spec: `curves.find_curve` looks a curve up by object
identifier in the registry (made an explicit parameter). -/
def find_curve (registry : List Curve) (oid : List ℕ) : Option Curve :=
  registry.find? (fun c => c.oid == oid)

namespace VerifyingKey

/-- Embeds `VerifyingKey.to_der` (keys.py lines 225-232): a
SubjectPublicKeyInfo whose bit string holds a zero unused-bits octet
followed by the chosen point encoding. -/
def to_der (vk : VerifyingKey) (point_encoding : PointEncoding) : List ℕ :=
  encode_sequence
    (encode_sequence (encoded_oid_ecPublicKey ++ vk.curve.encoded_oid) ++
      encode_bitstring (0 :: vk.to_string point_encoding))

/-- Embeds `VerifyingKey.from_der` (keys.py lines 131-158). -/
def from_der (registry : List Curve) (string : List ℕ) :
    Except KeyError VerifyingKey :=
  match remove_sequence string with
  | .error e => .error e
  | .ok (s1, empty) =>
    if empty ≠ [] then .error .unexpectedDER
    else
      match remove_sequence s1 with
      | .error e => .error e
      | .ok (s2, point_str_bitstring) =>
        match remove_object s2 with
        | .error e => .error e
        | .ok (oid_pk, rest) =>
          match remove_object rest with
          | .error e => .error e
          | .ok (oid_curve, empty2) =>
            if empty2 ≠ [] then .error .unexpectedDER
            else if oid_pk ≠ oid_ecPublicKey then .error .unexpectedDER
            else
              match find_curve registry oid_curve with
              | none => .error .unexpectedDER
              | some curve =>
                match remove_bitstring point_str_bitstring with
                | .error e => .error e
                | .ok (point_str, empty3) =>
                  if empty3 ≠ [] then .error .unexpectedDER
                  else if point_str.take 1 ≠ [0] ∨
                      (point_str.drop 1).length = curve.verifying_key_length then
                    .error .unexpectedDER
                  else from_string (point_str.drop 1) curve

end VerifyingKey

namespace SigningKey

/-- Embeds `SigningKey.to_der` (keys.py lines 350-359): the SEC1
ECPrivateKey structure, public key re-emitted in the chosen encoding. -/
def to_der (sk : SigningKey) (point_encoding : VerifyingKey.PointEncoding) :
    List ℕ :=
  encode_sequence
    (encode_integer 1 ++
      encode_octet_string sk.to_string ++
      encode_constructed 0 sk.curve.encoded_oid ++
      encode_constructed 1
        (encode_bitstring (0 :: (sk.get_verifying_key).to_string point_encoding)))

/-- Embeds `SigningKey.from_der` (keys.py lines 302-339): parses the version
integer (must be 1), the private-key octet string (left-padded with zeros up
to `baselen` when shorter) and the tag-0 curve object identifier; everything
after the tag-0 field inside the sequence is ignored. -/
def from_der (registry : List Curve) (string : List ℕ) :
    Except KeyError SigningKey :=
  match remove_sequence string with
  | .error e => .error e
  | .ok (s, empty) =>
    if empty ≠ [] then .error .unexpectedDER
    else
      match remove_integer s with
      | .error e => .error e
      | .ok (one, s) =>
        if one ≠ 1 then .error .unexpectedDER
        else
          match remove_octet_string s with
          | .error e => .error e
          | .ok (privkey_str, s) =>
            match remove_constructed s with
            | .error e => .error e
            | .ok (tag, curve_oid_str, _) =>
              if tag ≠ 0 then .error .unexpectedDER
              else
                match remove_object curve_oid_str with
                | .error e => .error e
                | .ok (curve_oid, empty2) =>
                  if empty2 ≠ [] then .error .unexpectedDER
                  else
                    match find_curve registry curve_oid with
                    | none => .error .unexpectedDER
                    | some curve =>
                      from_string
                        (if privkey_str.length < curve.baselen then
                          List.replicate (curve.baselen - privkey_str.length) 0
                            ++ privkey_str
                        else privkey_str) curve

end SigningKey

/-- ASCII code of the base64 alphabet character at index `v`. -/
def b64char (v : ℕ) : ℕ :=
  if v < 26 then 65 + v
  else if v < 52 then 97 + (v - 26)
  else if v < 62 then 48 + (v - 52)
  else if v = 62 then 43
  else 47

/-- Index of the ASCII code `ch` in the base64 alphabet (0 if absent). -/
def b64val (ch : ℕ) : ℕ :=
  if 65 ≤ ch ∧ ch ≤ 90 then ch - 65
  else if 97 ≤ ch ∧ ch ≤ 122 then ch - 97 + 26
  else if 48 ≤ ch ∧ ch ≤ 57 then ch - 48 + 52
  else if ch = 43 then 62
  else if ch = 47 then 63
  else 0

/-- Modelled from the spec: standard base64 encoding of a byte string
(61 is the ASCII code of the padding character). -/
def b64encode : List ℕ → List ℕ
  | [] => []
  | [a] => [b64char (a / 4), b64char (a % 4 * 16), 61, 61]
  | [a, b] => [b64char (a / 4), b64char (a % 4 * 16 + b / 16),
               b64char (b % 16 * 4), 61]
  | a :: b :: c :: rest =>
    b64char (a / 4) :: b64char (a % 4 * 16 + b / 16) ::
      b64char (b % 16 * 4 + c / 64) :: b64char (c % 64) :: b64encode rest

/-- Modelled from the spec: standard base64 decoding, four characters at a
time, honouring the padding character. -/
def b64decode : List ℕ → List ℕ
  | c1 :: c2 :: c3 :: c4 :: rest =>
    let byte1 := b64val c1 * 4 + b64val c2 / 16
    if c3 = 61 then [byte1]
    else
      let byte2 := b64val c2 % 16 * 16 + b64val c3 / 4
      if c4 = 61 then [byte1, byte2]
      else byte1 :: byte2 :: (b64val c3 % 4 * 64 + b64val c4) :: b64decode rest
  | _ => []

/-- Fuel-driven splitting of base64 text into newline-terminated lines of at
most 64 characters, as `der.topem` lays the body out. -/
def chunksAux : ℕ → List ℕ → List ℕ
  | 0, _ => []
  | fuel + 1, s =>
    if s = [] then [] else s.take 64 ++ 10 :: chunksAux fuel (s.drop 64)

/-- Newline-terminated 64-column layout of a base64 body. -/
def chunks64 (s : List ℕ) : List ℕ := chunksAux s.length s

/-- ASCII codes of the five-dash PEM marker border. -/
def dashes5 : List ℕ := [45, 45, 45, 45, 45]

/-- ASCII codes of the PEM label `EC PRIVATE KEY`. -/
def ecPrivateKeyLabel : List ℕ :=
  [69, 67, 32, 80, 82, 73, 86, 65, 84, 69, 32, 75, 69, 89]

/-- The first line of a PEM block for a label, without the newline. -/
def pemBeginLine (label : List ℕ) : List ℕ :=
  dashes5 ++ [66, 69, 71, 73, 78, 32] ++ label ++ dashes5

/-- The last line of a PEM block for a label, without the newline. -/
def pemEndLine (label : List ℕ) : List ℕ :=
  dashes5 ++ [69, 78, 68, 32] ++ label ++ dashes5

/-- Modelled from the spec: `der.topem` wraps DER bytes between BEGIN and
END marker lines with the base64 body at 64 columns. -/
def topem (d : List ℕ) (label : List ℕ) : List ℕ :=
  pemBeginLine label ++ 10 :: chunks64 (b64encode d) ++ pemEndLine label ++ [10]

/-- Splits a byte string at newline characters (ASCII 10). -/
def splitLines : List ℕ → List (List ℕ)
  | [] => [[]]
  | c :: t =>
    if c = 10 then [] :: splitLines t
    else
      match splitLines t with
      | [] => [[c]]
      | l :: ls => (c :: l) :: ls

/-- Keeps the lines of a PEM body: non-empty and not a marker line. -/
def pemKeep (l : List ℕ) : Bool := l ≠ [] && l.take 5 ≠ dashes5

/-- Modelled from the spec: `der.unpem` drops the marker lines and base64-
decodes the joined body. -/
def unpem (pem : List ℕ) : List ℕ :=
  b64decode (((splitLines pem).filter pemKeep).flatten)

/-- Index of the first occurrence of `needle` in a byte string, as python
`bytes.index` computes it. -/
def firstIndexOf (needle : List ℕ) : List ℕ → Option ℕ
  | [] => if needle = [] then some 0 else none
  | h :: t =>
    if needle.isPrefixOf (h :: t) then some 0
    else (firstIndexOf needle t).map (· + 1)

namespace SigningKey

/-- Embeds `SigningKey.to_pem` (keys.py lines 346-348). -/
def to_pem (sk : SigningKey) (point_encoding : VerifyingKey.PointEncoding) :
    List ℕ :=
  topem (sk.to_der point_encoding) ecPrivateKeyLabel

/-- Embeds `SigningKey.from_pem` (keys.py lines 293-300): the text from the
first occurrence of the BEGIN EC PRIVATE KEY marker on is unarmored and
parsed as DER; a missing marker is a `ValueError`. -/
def from_pem (registry : List Curve) (string : List ℕ) :
    Except KeyError SigningKey :=
  match firstIndexOf (pemBeginLine ecPrivateKeyLabel) string with
  | none => .error .notFound
  | some i => from_der registry (unpem (string.drop i))

end SigningKey

/-- A small concrete curve used for witnesses: over the 277-element field,
the curve has equation `y^2 = x^3 + 5` with base point `(2, 104)` of prime
order 283 (the full group, cofactor 1). -/
def toyCurve : Curve :=
  { p := 277, a := 0, b := 5, Gx := 2, Gy := 104, order := 283, oid := [43, 1] }

/-- A concrete verifying key on `toyCurve`, holding its base point. -/
def toyVK : VerifyingKey := ⟨toyCurve, (2, 104)⟩

/-- A concrete signing key on `toyCurve` with secret exponent 1. -/
def toySK : SigningKey := ⟨toyCurve, 1⟩

/-- A constant hash oracle used in signing witnesses. -/
def constHash : List ℕ → List ℕ := fun _ => [0]

/-- A constant entropy oracle used in signing witnesses. -/
def constRng : ℕ → ℕ := fun _ => 1

theorem bigEndian_length (l : ℕ) : ∀ n, (bigEndian l n).length = l := by
  induction l with
  | zero => intro n; rfl
  | succ l ih => intro n; simp [bigEndian, ih]

theorem string_to_number_snoc (xs : List ℕ) (b : ℕ) :
    string_to_number (xs ++ [b]) = string_to_number xs * 256 + b := by
  simp [string_to_number, List.foldl_append]

theorem string_to_number_bigEndian (l : ℕ) :
    ∀ n, string_to_number (bigEndian l n) = n % 256 ^ l := by
  induction l with
  | zero => intro n; simp [bigEndian, string_to_number, Nat.mod_one]
  | succ l ih =>
    intro n
    rw [bigEndian, string_to_number_snoc, ih, pow_succ', Nat.mod_mul]
    ring

theorem string_to_number_bigEndian_of_lt {l n : ℕ} (h : n < 256 ^ l) :
    string_to_number (bigEndian l n) = n := by
  rw [string_to_number_bigEndian, Nat.mod_eq_of_lt h]

theorem mem_bigEndian_lt {l n b : ℕ} (h : b ∈ bigEndian l n) : b < 256 := by
  induction l generalizing n with
  | zero => simp [bigEndian] at h
  | succ l ih =>
    rw [bigEndian] at h
    rcases List.mem_append.1 h with h1 | h1
    · exact ih h1
    · simp at h1; subst h1; exact Nat.mod_lt _ (by norm_num)

theorem byteLenAux_pos (fuel n : ℕ) : 1 ≤ byteLenAux fuel n := by
  cases fuel with
  | zero => simp [byteLenAux]
  | succ fuel =>
    rw [byteLenAux]
    split <;> omega

theorem byteLenAux_bounds (fuel : ℕ) :
    ∀ n, n ≤ fuel →
      n < 256 ^ byteLenAux fuel n ∧
        (1 ≤ n → 256 ^ (byteLenAux fuel n - 1) ≤ n) := by
  induction fuel with
  | zero =>
    intro n hn
    have : n = 0 := by omega
    subst this
    simp [byteLenAux]
  | succ fuel ih =>
    intro n hn
    rw [byteLenAux]
    by_cases hsm : n < 256
    · simp [hsm]
    · simp only [hsm, if_false]
      have hm : n / 256 ≤ fuel := by
        have := Nat.div_lt_self (by omega : 0 < n) (by norm_num : 1 < 256)
        omega
      obtain ⟨hup, hlo⟩ := ih (n / 256) hm
      have hB1 : 1 ≤ byteLenAux fuel (n / 256) := byteLenAux_pos _ _
      have hm1 : 1 ≤ n / 256 := Nat.one_le_div_iff (by norm_num) |>.2 (by omega)
      constructor
      · have h1 : n < 256 * (n / 256 + 1) := by
          have := Nat.div_add_mod n 256
          have := Nat.mod_lt n (show 0 < 256 by norm_num)
          omega
        calc n < 256 * (n / 256 + 1) := h1
          _ ≤ 256 * 256 ^ byteLenAux fuel (n / 256) := by
              have : n / 256 + 1 ≤ 256 ^ byteLenAux fuel (n / 256) := hup
              exact Nat.mul_le_mul_left _ this
          _ = 256 ^ (1 + byteLenAux fuel (n / 256)) := by
              rw [pow_add, pow_one]
      · intro _
        have hgoal : 256 ^ (1 + byteLenAux fuel (n / 256) - 1) =
            256 * 256 ^ (byteLenAux fuel (n / 256) - 1) := by
          have h2 : 1 + byteLenAux fuel (n / 256) - 1 =
              1 + (byteLenAux fuel (n / 256) - 1) := by omega
          rw [h2, pow_add, pow_one]
        rw [hgoal]
        calc 256 * 256 ^ (byteLenAux fuel (n / 256) - 1)
            ≤ 256 * (n / 256) := Nat.mul_le_mul_left _ (hlo hm1)
          _ ≤ n := Nat.mul_div_le n 256

theorem byteLen_lt (n : ℕ) : n < 256 ^ byteLen n :=
  (byteLenAux_bounds n n le_rfl).1

theorem byteLen_lower {n : ℕ} (h : 1 ≤ n) : 256 ^ (byteLen n - 1) ≤ n :=
  (byteLenAux_bounds n n le_rfl).2 h

theorem byteLen_pos (n : ℕ) : 1 ≤ byteLen n := byteLenAux_pos n n

theorem byteLen_le {n m : ℕ} (hm : 1 ≤ m) (h : n < 256 ^ m) : byteLen n ≤ m := by
  by_contra hgt
  have h1 : 1 ≤ n := by
    by_contra h0
    have : n = 0 := by omega
    subst this
    have : byteLen 0 = 1 := rfl
    omega
  have h2 : m ≤ byteLen n - 1 := by omega
  have h3 : 256 ^ m ≤ 256 ^ (byteLen n - 1) :=
    Nat.pow_le_pow_right (by norm_num) h2
  have := byteLen_lower h1
  omega

theorem bigEndian_head (l : ℕ) :
    ∀ n, (bigEndian (l + 1) n).head? = some (n / 256 ^ l % 256) := by
  induction l with
  | zero => intro n; simp [bigEndian]
  | succ l ih =>
    intro n
    rw [bigEndian, List.head?_append]
    have hne : (bigEndian (l + 1) (n / 256)).head? =
        some (n / 256 / 256 ^ l % 256) := ih (n / 256)
    rw [hne]
    have : n / 256 / 256 ^ l = n / 256 ^ (l + 1) := by
      rw [Nat.div_div_eq_div_mul, ← pow_succ']
    rw [this]
    rfl

theorem bytesOfNat_head_ne_zero {n : ℕ} (h : 1 ≤ n) :
    (bytesOfNat n).take 1 ≠ [0] := by
  have hB := byteLen_pos n
  obtain ⟨B, hBeq⟩ : ∃ B, byteLen n = B + 1 := ⟨byteLen n - 1, by omega⟩
  have hhead : (bytesOfNat n).head? = some (n / 256 ^ B % 256) := by
    rw [bytesOfNat, hBeq]; exact bigEndian_head B n
  have hlow : 256 ^ B ≤ n := by
    have := byteLen_lower h
    rw [hBeq] at this
    simpa using this
  have hup : n < 256 ^ (B + 1) := by
    have := byteLen_lt n
    rwa [hBeq] at this
  have hq1 : 1 ≤ n / 256 ^ B := Nat.one_le_div_iff (Nat.pos_pow_of_pos B (by norm_num)) |>.2 hlow
  have hq2 : n / 256 ^ B < 256 := by
    rw [Nat.div_lt_iff_lt_mul (Nat.pos_pow_of_pos B (by norm_num))]
    rw [pow_succ'] at hup
    exact hup
  rw [List.take_one, hhead]
  simp only [Option.toList]
  intro hcontra
  have : n / 256 ^ B % 256 = 0 := by
    injection hcontra with h1 _
  rw [Nat.mod_eq_of_lt hq2] at this
  omega

theorem square_root_spec {a p b : ℕ} (h : square_root_mod_prime a p = some b) :
    b < p ∧ b * b % p = a := by
  unfold square_root_mod_prime at h
  have h1 := List.find?_some h
  have h2 := List.mem_of_find?_eq_some h
  rw [List.mem_range] at h2
  simp only [beq_iff_eq] at h1
  exact ⟨h2, h1⟩

theorem square_root_total {a p y : ℕ} (hy : y < p) (heq : y * y % p = a) :
    ∃ b, square_root_mod_prime a p = some b := by
  unfold square_root_mod_prime
  cases hfind : (List.range p).find? (fun b => b * b % p == a) with
  | some b => exact ⟨b, rfl⟩
  | none =>
    exfalso
    have := List.find?_eq_none.1 hfind y (List.mem_range.2 hy)
    simp [heq] at this

theorem sq_eq_cases {p b y : ℕ} (hp : Nat.Prime p) (hb : b < p) (hy : y < p)
    (h : b * b % p = y * y % p) : b = y ∨ b + y = p := by
  have hmod : Nat.ModEq p (b * b) (y * y) := h
  have hdvd : (p : ℤ) ∣ ((y * y : ℕ) : ℤ) - ((b * b : ℕ) : ℤ) :=
    Nat.ModEq.dvd hmod
  have hfac : ((y * y : ℕ) : ℤ) - ((b * b : ℕ) : ℤ) =
      ((y : ℤ) - b) * ((y : ℤ) + b) := by
    push_cast
    ring
  rw [hfac] at hdvd
  rcases Int.Prime.dvd_mul hp hdvd with hc | hc
  · left
    have habs : ((y : ℤ) - b).natAbs < p := by omega
    have h0 : ((y : ℤ) - b).natAbs = 0 := Nat.eq_zero_of_dvd_of_lt hc habs
    omega
  · have habs : ((y : ℤ) + b).natAbs = y + b := by omega
    rw [habs] at hc
    obtain ⟨k, hk⟩ := hc
    rcases k with _ | _ | k
    · left
      omega
    · right
      omega
    · exfalso
      have h2p : p * 2 ≤ p * (k + 1 + 1) := Nat.mul_le_mul_left p (by omega)
      omega

theorem point_is_valid_elim {c : Curve} {x y : ℕ}
    (h : point_is_valid c x y = true) :
    x < c.p ∧ y < c.p ∧ y * y % c.p = curveRHS c x := by
  unfold point_is_valid at h
  simp only [Bool.and_eq_true, decide_eq_true_eq, beq_iff_eq] at h
  exact ⟨h.1.1.1, h.1.1.2, h.1.2⟩

theorem nts_length (x : ℕ) (c : Curve) :
    (number_to_string x c.order).length = c.baselen :=
  bigEndian_length _ _

theorem stn_nts {x : ℕ} (c : Curve) (hx : x < 256 ^ c.baselen) :
    string_to_number (number_to_string x c.order) = x :=
  string_to_number_bigEndian_of_lt hx

theorem from_raw_encoding_eq (c : Curve) (x y : ℕ)
    (hx : x < 256 ^ c.baselen) (hy : y < 256 ^ c.baselen) (v : Bool) :
    VerifyingKey.from_raw_encoding
        (number_to_string x c.order ++ number_to_string y c.order) c v =
      if v && !(point_is_valid c x y) then .error .malformedPoint
      else .ok (x, y) := by
  have hlx := nts_length x c
  have hly := nts_length y c
  have hlen : (number_to_string x c.order ++
      number_to_string y c.order).length = c.verifying_key_length := by
    rw [List.length_append, hlx, hly, Curve.verifying_key_length]
    omega
  have ht : (number_to_string x c.order ++
      number_to_string y c.order).take c.baselen = number_to_string x c.order := by
    rw [← hlx]
    exact List.take_left _ _
  have hd : (number_to_string x c.order ++
      number_to_string y c.order).drop c.baselen = number_to_string y c.order := by
    rw [← hlx]
    exact List.drop_left _ _
  unfold VerifyingKey.from_raw_encoding
  rw [if_neg (by simp [hlen])]
  simp only [ht, hd, stn_nts c hx, stn_nts c hy]

theorem from_compressed_encode_of_valid (c : Curve) (x y : ℕ)
    (hp : Nat.Prime c.p) (hodd : c.p % 2 = 1)
    (hx : x < 256 ^ c.baselen)
    (hval : point_is_valid c x y = true) (v : Bool) :
    VerifyingKey.from_compressed
      (VerifyingKey.compressed_encode ⟨c, (x, y)⟩) c v = .ok (x, y) := by
  obtain ⟨hxp, hyp, heq⟩ := point_is_valid_elim hval
  obtain ⟨beta, hbeta⟩ := square_root_total hyp heq
  obtain ⟨hblt, hbsq⟩ := square_root_spec hbeta
  have hcases : beta = y ∨ beta + y = c.p :=
    sq_eq_cases hp hblt hyp (by rw [hbsq, heq])
  by_cases hpar : y % 2 = 1
  · -- odd y: prefix 3
    have henc : VerifyingKey.compressed_encode ⟨c, (x, y)⟩ =
        3 :: number_to_string x c.order := by
      unfold VerifyingKey.compressed_encode
      simp [hpar]
    rw [henc]
    unfold VerifyingKey.from_compressed
    rw [if_neg (by simp)]
    have htake : (3 :: number_to_string x c.order).take 1 = [3] := rfl
    have hdrop : (3 :: number_to_string x c.order).drop 1 =
        number_to_string x c.order := rfl
    simp only [htake, hdrop, stn_nts c hx, hbeta]
    rcases hcases with hby | hby
    · -- beta is y itself, odd, so no flip
      have hcond : ¬ (([(3 : ℕ)] = [2]) = (beta % 2 = 1)) := by
        rw [eq_iff_iff]
        intro hiff
        have : beta % 2 = 1 := by omega
        have : ([(3 : ℕ)] = [2]) := hiff.2 this
        simp at this
      rw [if_neg hcond, hby]
      simp [hval]
    · -- beta = p - y, even, so flip back
      have hbne : beta % 2 = 0 := by omega
      have hcond : (([(3 : ℕ)] = [2]) = (beta % 2 = 1)) := by
        rw [eq_iff_iff]
        constructor
        · intro h3
          simp at h3
        · intro hb1
          omega
      rw [if_pos hcond]
      have : c.p - beta = y := by omega
      rw [this]
      simp [hval]
  · -- even y: prefix 2
    have henc : VerifyingKey.compressed_encode ⟨c, (x, y)⟩ =
        2 :: number_to_string x c.order := by
      unfold VerifyingKey.compressed_encode
      simp [hpar]
    rw [henc]
    unfold VerifyingKey.from_compressed
    rw [if_neg (by simp)]
    have htake : (2 :: number_to_string x c.order).take 1 = [2] := rfl
    have hdrop : (2 :: number_to_string x c.order).drop 1 =
        number_to_string x c.order := rfl
    simp only [htake, hdrop, stn_nts c hx, hbeta]
    rcases hcases with hby | hby
    · have hcond : ¬ ((True : Prop) = (beta % 2 = 1)) := by
        rw [eq_iff_iff]
        intro hiff
        have : beta % 2 = 1 := hiff.1 trivial
        omega
      rw [if_neg hcond, hby]
      simp [hval]
    · -- beta = p - y with y even; y cannot be 0 here since beta < p
      have hy0 : 1 ≤ y := by omega
      have hbodd : beta % 2 = 1 := by omega
      have hcond : ((True : Prop) = (beta % 2 = 1)) := by
        rw [eq_iff_iff]
        exact ⟨fun _ => hbodd, fun _ => trivial⟩
      rw [if_pos hcond]
      have : c.p - beta = y := by omega
      rw [this]
      simp [hval]

/-- Claim C1: for every verifying key `vk` over a fixed curve (odd prime
field, coordinates fitting in `baselen` bytes, `baselen` at least 2 as for
every registered curve, public point passing `point_is_valid`) and every
encoding among raw, uncompressed, compressed and hybrid,
`VerifyingKey.from_string (vk.to_string E) curve` with `validate_point =
true` succeeds and returns a verifying key with the same public point. -/
theorem C1_point_serialization_roundtrip (c : Curve) (x y : ℕ)
    (hp : Nat.Prime c.p) (hodd : c.p % 2 = 1)
    (hfit : c.p ≤ 256 ^ c.baselen) (hbl : 2 ≤ c.baselen)
    (hval : point_is_valid c x y = true) :
    ∀ enc : VerifyingKey.PointEncoding,
      VerifyingKey.from_string ((⟨c, (x, y)⟩ : VerifyingKey).to_string enc)
        c true = .ok ⟨c, (x, y)⟩ := by
  obtain ⟨hxp, hyp, heq⟩ := point_is_valid_elim hval
  have hx : x < 256 ^ c.baselen := lt_of_lt_of_le hxp hfit
  have hy : y < 256 ^ c.baselen := lt_of_lt_of_le hyp hfit
  have hraw : (⟨c, (x, y)⟩ : VerifyingKey).raw_encode =
      number_to_string x c.order ++ number_to_string y c.order := rfl
  have hrawlen : (⟨c, (x, y)⟩ : VerifyingKey).raw_encode.length =
      c.verifying_key_length := by
    rw [hraw, List.length_append, nts_length, nts_length,
      Curve.verifying_key_length]
    omega
  intro enc
  cases enc with
  | raw =>
    show VerifyingKey.from_string ((⟨c, (x, y)⟩ : VerifyingKey).raw_encode)
        c true = _
    unfold VerifyingKey.from_string
    rw [if_pos hrawlen, hraw, from_raw_encoding_eq c x y hx hy true]
    simp [hval, Except.map, VerifyingKey.from_public_point]
  | uncompressed =>
    show VerifyingKey.from_string
        (4 :: (⟨c, (x, y)⟩ : VerifyingKey).raw_encode) c true = _
    unfold VerifyingKey.from_string
    have hlen1 : (4 :: (⟨c, (x, y)⟩ : VerifyingKey).raw_encode).length =
        c.verifying_key_length + 1 := by
      simp [hrawlen]
    rw [if_neg (by rw [hlen1]; omega), if_pos hlen1]
    have htake : (4 :: (⟨c, (x, y)⟩ : VerifyingKey).raw_encode).take 1 =
        [4] := rfl
    have hdrop : (4 :: (⟨c, (x, y)⟩ : VerifyingKey).raw_encode).drop 1 =
        (⟨c, (x, y)⟩ : VerifyingKey).raw_encode := rfl
    rw [htake, hdrop]
    rw [if_neg (by simp), if_pos rfl, hraw,
      from_raw_encoding_eq c x y hx hy true]
    simp [hval, Except.map, VerifyingKey.from_public_point]
  | hybrid =>
    show VerifyingKey.from_string
        ((⟨c, (x, y)⟩ : VerifyingKey).hybrid_encode) c true = _
    by_cases hpar : y % 2 = 1
    · have henc : (⟨c, (x, y)⟩ : VerifyingKey).hybrid_encode =
          7 :: (⟨c, (x, y)⟩ : VerifyingKey).raw_encode := by
        unfold VerifyingKey.hybrid_encode
        simp [hpar]
      rw [henc]
      unfold VerifyingKey.from_string
      have hlen1 : (7 :: (⟨c, (x, y)⟩ : VerifyingKey).raw_encode).length =
          c.verifying_key_length + 1 := by simp [hrawlen]
      rw [if_neg (by rw [hlen1]; omega), if_pos hlen1]
      have htake : (7 :: (⟨c, (x, y)⟩ : VerifyingKey).raw_encode).take 1 =
          [7] := rfl
      rw [htake]
      rw [if_pos (by right; rfl)]
      unfold VerifyingKey.from_hybrid
      rw [htake]
      rw [if_neg (by simp)]
      have hdrop : (7 :: (⟨c, (x, y)⟩ : VerifyingKey).raw_encode).drop 1 =
          (⟨c, (x, y)⟩ : VerifyingKey).raw_encode := rfl
      rw [hdrop, hraw, from_raw_encoding_eq c x y hx hy true]
      simp [hval, hpar, Except.map, VerifyingKey.from_public_point]
    · have henc : (⟨c, (x, y)⟩ : VerifyingKey).hybrid_encode =
          6 :: (⟨c, (x, y)⟩ : VerifyingKey).raw_encode := by
        unfold VerifyingKey.hybrid_encode
        simp [hpar]
      rw [henc]
      unfold VerifyingKey.from_string
      have hlen1 : (6 :: (⟨c, (x, y)⟩ : VerifyingKey).raw_encode).length =
          c.verifying_key_length + 1 := by simp [hrawlen]
      rw [if_neg (by rw [hlen1]; omega), if_pos hlen1]
      have htake : (6 :: (⟨c, (x, y)⟩ : VerifyingKey).raw_encode).take 1 =
          [6] := rfl
      rw [htake]
      rw [if_pos (by left; rfl)]
      unfold VerifyingKey.from_hybrid
      rw [htake]
      rw [if_neg (by simp)]
      have hdrop : (6 :: (⟨c, (x, y)⟩ : VerifyingKey).raw_encode).drop 1 =
          (⟨c, (x, y)⟩ : VerifyingKey).raw_encode := rfl
      rw [hdrop, hraw, from_raw_encoding_eq c x y hx hy true]
      simp [hval, hpar, Except.map, VerifyingKey.from_public_point]
  | compressed =>
    show VerifyingKey.from_string
        ((⟨c, (x, y)⟩ : VerifyingKey).compressed_encode) c true = _
    have hclen : (⟨c, (x, y)⟩ : VerifyingKey).compressed_encode.length =
        c.baselen + 1 := by
      unfold VerifyingKey.compressed_encode
      by_cases hpar : y % 2 = 1 <;> simp [hpar, nts_length]
    unfold VerifyingKey.from_string
    rw [if_neg (by rw [hclen, Curve.verifying_key_length]; omega),
      if_neg (by rw [hclen, Curve.verifying_key_length]; omega),
      if_pos hclen,
      from_compressed_encode_of_valid c x y hp hodd hx hval true]
    simp [Except.map, VerifyingKey.from_public_point]

/-- Witness for C1 at the toy curve: the round trip holds concretely for
all four encodings of the base point. -/
theorem C1_point_serialization_roundtrip_witness :
    VerifyingKey.from_string (toyVK.to_string .raw) toyCurve true = .ok toyVK ∧
    VerifyingKey.from_string (toyVK.to_string .uncompressed) toyCurve true
      = .ok toyVK ∧
    VerifyingKey.from_string (toyVK.to_string .compressed) toyCurve true
      = .ok toyVK ∧
    VerifyingKey.from_string (toyVK.to_string .hybrid) toyCurve true
      = .ok toyVK :=
  ⟨C1_point_serialization_roundtrip toyCurve 2 104 (by show Nat.Prime 277; norm_num) (by decide)
      (by decide) (by decide) (by decide) .raw,
    C1_point_serialization_roundtrip toyCurve 2 104 (by show Nat.Prime 277; norm_num) (by decide)
      (by decide) (by decide) (by decide) .uncompressed,
    C1_point_serialization_roundtrip toyCurve 2 104 (by show Nat.Prime 277; norm_num) (by decide)
      (by decide) (by decide) (by decide) .compressed,
    C1_point_serialization_roundtrip toyCurve 2 104 (by show Nat.Prime 277; norm_num) (by decide)
      (by decide) (by decide) (by decide) .hybrid⟩

/-- Counterexample to C4 as stated: on the toy curve the hybrid encoding
with prefix 7 of the point (2, 104) — whose y coordinate is even, so the
prefix parity disagrees — is accepted by `from_string` when
`validate_point = false`, instead of failing with `MalformedPoint`. -/
theorem C4_hybrid_mismatch_counterexample :
    VerifyingKey.from_string [7, 0, 2, 0, 104] toyCurve false
      = .ok ⟨toyCurve, (2, 104)⟩ := rfl

/-- Claim C4 (amended): a hybrid point encoding whose prefix parity
disagrees with the parity of the encoded y coordinate is rejected by
`from_string` with `MalformedPoint` when `validate_point = true`; with
`validate_point = false` the inconsistency check is skipped. -/
theorem C4_hybrid_mismatch_rejected (c : Curve) (x y : ℕ)
    (hx : x < 256 ^ c.baselen) (hy : y < 256 ^ c.baselen) (pfx : ℕ)
    (hmis : (pfx = 6 ∧ y % 2 = 1) ∨ (pfx = 7 ∧ y % 2 = 0)) :
    VerifyingKey.from_string
      (pfx :: (number_to_string x c.order ++ number_to_string y c.order))
      c true = .error .malformedPoint := by
  have hlen : (pfx :: (number_to_string x c.order ++
      number_to_string y c.order)).length = c.verifying_key_length + 1 := by
    simp [List.length_append, nts_length, Curve.verifying_key_length]
    omega
  have htake : (pfx :: (number_to_string x c.order ++
      number_to_string y c.order)).take 1 = [pfx] := rfl
  have hdrop : (pfx :: (number_to_string x c.order ++
      number_to_string y c.order)).drop 1 =
      number_to_string x c.order ++ number_to_string y c.order := rfl
  unfold VerifyingKey.from_string
  rw [if_neg (by rw [hlen]; omega), if_pos hlen, htake]
  rcases hmis with ⟨hp6, hodd⟩ | ⟨hp7, heven⟩
  · subst hp6
    rw [if_pos (by left; rfl)]
    unfold VerifyingKey.from_hybrid
    rw [htake, if_neg (by simp), hdrop, from_raw_encoding_eq c x y hx hy true]
    cases hvalid : point_is_valid c x y with
    | false => simp [hvalid, Except.map]
    | true => simp [hvalid, hodd, Except.map]
  · subst hp7
    rw [if_pos (by right; rfl)]
    unfold VerifyingKey.from_hybrid
    rw [htake, if_neg (by simp), hdrop, from_raw_encoding_eq c x y hx hy true]
    cases hvalid : point_is_valid c x y with
    | false => simp [hvalid, Except.map]
    | true => simp [hvalid, heven, Except.map]

/-- Witness for the amended C4 at the toy curve. -/
theorem C4_hybrid_mismatch_rejected_witness :
    VerifyingKey.from_string [7, 0, 2, 0, 104] toyCurve true
      = .error .malformedPoint :=
  C4_hybrid_mismatch_rejected toyCurve 2 104 (by decide) (by decide) 7
    (Or.inr ⟨rfl, by decide⟩)

theorem sub_sq_mod (p b : ℕ) (hb : b ≤ p) :
    (p - b) * (p - b) % p = b * b % p := by
  have hmod : Nat.ModEq p ((p - b) * (p - b)) (b * b) := by
    apply (Nat.modEq_iff_dvd).2
    refine ⟨2 * b - p, ?_⟩
    have h1 : ((p - b : ℕ) : ℤ) = (p : ℤ) - b := by omega
    push_cast [h1]
    ring
  exact hmod

theorem from_compressed_eq (c : Curve) (x : ℕ) (hxlt : x < 256 ^ c.baselen)
    (pfx : ℕ) (hpfx : pfx = 2 ∨ pfx = 3) (v : Bool) :
    VerifyingKey.from_compressed (pfx :: number_to_string x c.order) c v =
      match square_root_mod_prime (curveRHS c x) c.p with
      | none => .error .malformedPoint
      | some beta =>
        if (pfx = 2) = (beta % 2 = 1) then
          if v && !(point_is_valid c x (c.p - beta)) then
            .error .malformedPoint
          else .ok (x, c.p - beta)
        else
          if v && !(point_is_valid c x beta) then .error .malformedPoint
          else .ok (x, beta) := by
  unfold VerifyingKey.from_compressed
  have htake : (pfx :: number_to_string x c.order).take 1 = [pfx] := rfl
  have hdrop : (pfx :: number_to_string x c.order).drop 1 =
      number_to_string x c.order := rfl
  rw [htake, if_neg (by rcases hpfx with h | h <;> simp [h])]
  have hlist : (([pfx] : List ℕ) = [2]) = (pfx = 2) := by simp
  simp only [hdrop, stn_nts c hxlt, hlist]
  cases square_root_mod_prime (curveRHS c x) c.p with
  | none => rfl
  | some beta =>
    simp only []
    by_cases hcond : (pfx = 2) = (beta % 2 = 1)
    · rw [if_pos hcond, if_pos hcond]
    · rw [if_neg hcond, if_neg hcond]

/-- Claim C5: for a curve over an odd prime field and a compressed encoding
`pfx ‖ x` with `pfx` 2 or 3 and `x` below `p`: when `alpha = x^3 + a x + b
mod p` is a quadratic residue, the decoder returns a point `(x, y)` with
`y * y ≡ alpha (mod p)` whose parity matches the prefix (`y` even iff the
prefix is 2), and with `validate_point = true` it does so as soon as the
point is valid; when `alpha` is a non-residue the decoder fails with
`MalformedPoint` for either value of `validate_point`. -/
theorem C5_compressed_decode_correct (c : Curve) (x : ℕ)
    (hp : Nat.Prime c.p) (hodd : c.p % 2 = 1) (hxp : x < c.p)
    (hfit : c.p ≤ 256 ^ c.baselen) (pfx : ℕ) (hpfx : pfx = 2 ∨ pfx = 3) :
    ((∀ y, y < c.p → y * y % c.p ≠ curveRHS c x) →
      ∀ v, VerifyingKey.from_compressed
        (pfx :: number_to_string x c.order) c v = .error .malformedPoint)
    ∧ ((∃ y, y < c.p ∧ y * y % c.p = curveRHS c x) →
      ∃ y, y * y % c.p = curveRHS c x ∧ ((y % 2 = 0) ↔ pfx = 2) ∧
        VerifyingKey.from_compressed
          (pfx :: number_to_string x c.order) c false = .ok (x, y) ∧
        (point_is_valid c x y = true →
          VerifyingKey.from_compressed
            (pfx :: number_to_string x c.order) c true = .ok (x, y))) := by
  have hxlt : x < 256 ^ c.baselen := lt_of_lt_of_le hxp hfit
  constructor
  · intro hnr v
    have hnone : square_root_mod_prime (curveRHS c x) c.p = none := by
      unfold square_root_mod_prime
      rw [List.find?_eq_none]
      intro b hb
      simp only [beq_iff_eq]
      exact hnr b (List.mem_range.1 hb)
    rw [from_compressed_eq c x hxlt pfx hpfx v, hnone]
  · rintro ⟨y0, hy0, hsq0⟩
    obtain ⟨beta, hbeta⟩ := square_root_total hy0 hsq0
    obtain ⟨hblt, hbsq⟩ := square_root_spec hbeta
    have hsub : (c.p - beta) * (c.p - beta) % c.p = curveRHS c x := by
      rw [sub_sq_mod c.p beta (le_of_lt hblt), hbsq]
    rcases hpfx with h2 | h3
    · subst h2
      by_cases hbpar : beta % 2 = 1
      · refine ⟨c.p - beta, hsub, ?_, ?_, ?_⟩
        · constructor
          · intro _
            rfl
          · intro _
            omega
        · rw [from_compressed_eq c x hxlt 2 (Or.inl rfl) false, hbeta]
          simp only []
          rw [if_pos (show (True : Prop) = (beta % 2 = 1) by
            rw [eq_iff_iff]; exact ⟨fun _ => hbpar, fun _ => trivial⟩)]
          rfl
        · intro hval
          rw [from_compressed_eq c x hxlt 2 (Or.inl rfl) true, hbeta]
          simp only []
          rw [if_pos (show (True : Prop) = (beta % 2 = 1) by
            rw [eq_iff_iff]; exact ⟨fun _ => hbpar, fun _ => trivial⟩)]
          simp [hval]
      · refine ⟨beta, hbsq, ?_, ?_, ?_⟩
        · constructor
          · intro _
            rfl
          · intro _
            omega
        · rw [from_compressed_eq c x hxlt 2 (Or.inl rfl) false, hbeta]
          simp only []
          rw [if_neg (show ¬ ((True : Prop) = (beta % 2 = 1)) from
            fun h => hbpar ((eq_iff_iff.1 h).1 trivial))]
          rfl
        · intro hval
          rw [from_compressed_eq c x hxlt 2 (Or.inl rfl) true, hbeta]
          simp only []
          rw [if_neg (show ¬ ((True : Prop) = (beta % 2 = 1)) from
            fun h => hbpar ((eq_iff_iff.1 h).1 trivial))]
          simp [hval]
    · subst h3
      by_cases hbpar : beta % 2 = 1
      · refine ⟨beta, hbsq, ?_, ?_, ?_⟩
        · constructor
          · intro hbe
            omega
          · intro h32
            exact absurd h32 (by norm_num)
        · rw [from_compressed_eq c x hxlt 3 (Or.inr rfl) false, hbeta]
          simp only []
          rw [if_neg (show ¬ (((3 : ℕ) = 2) = (beta % 2 = 1)) from
            fun h => absurd ((eq_iff_iff.1 h).2 hbpar) (by norm_num))]
          rfl
        · intro hval
          rw [from_compressed_eq c x hxlt 3 (Or.inr rfl) true, hbeta]
          simp only []
          rw [if_neg (show ¬ (((3 : ℕ) = 2) = (beta % 2 = 1)) from
            fun h => absurd ((eq_iff_iff.1 h).2 hbpar) (by norm_num))]
          simp [hval]
      · refine ⟨c.p - beta, hsub, ?_, ?_, ?_⟩
        · constructor
          · intro hbe
            omega
          · intro h32
            exact absurd h32 (by norm_num)
        · rw [from_compressed_eq c x hxlt 3 (Or.inr rfl) false, hbeta]
          simp only []
          rw [if_pos (show ((3 : ℕ) = 2) = (beta % 2 = 1) by
              rw [eq_iff_iff]
              exact ⟨fun h32 => absurd h32 (by norm_num),
                fun hb => absurd hb hbpar⟩)]
          rfl
        · intro hval
          rw [from_compressed_eq c x hxlt 3 (Or.inr rfl) true, hbeta]
          simp only []
          rw [if_pos (show ((3 : ℕ) = 2) = (beta % 2 = 1) by
              rw [eq_iff_iff]
              exact ⟨fun h32 => absurd h32 (by norm_num),
                fun hb => absurd hb hbpar⟩)]
          simp [hval]

/-- Witness for C5 at the toy curve: decoding prefix 2 with x = 2 returns
an even square root of `alpha`. -/
theorem C5_compressed_decode_correct_witness :
    ∃ y, y * y % toyCurve.p = curveRHS toyCurve 2 ∧
      ((y % 2 = 0) ↔ (2 : ℕ) = 2) ∧
      VerifyingKey.from_compressed
        (2 :: number_to_string 2 toyCurve.order) toyCurve false
        = .ok (2, y) ∧
      (point_is_valid toyCurve 2 y = true →
        VerifyingKey.from_compressed
          (2 :: number_to_string 2 toyCurve.order) toyCurve true
          = .ok (2, y)) :=
  (C5_compressed_decode_correct toyCurve 2 (by show Nat.Prime 277; norm_num)
      (by decide) (by decide) (by decide) 2 (Or.inl rfl)).2
    ⟨104, by decide, by decide⟩

theorem except_map_ok {ε α β : Type} {f : α → β} {e : Except ε α} {b : β}
    (h : e.map f = .ok b) : ∃ a, e = .ok a ∧ b = f a := by
  cases e with
  | error e => simp [Except.map] at h
  | ok a =>
    simp [Except.map] at h
    exact ⟨a, rfl, h.symm⟩

theorem from_raw_encoding_ok_valid {s : List ℕ} {c : Curve} {pt : ℕ × ℕ}
    (h : VerifyingKey.from_raw_encoding s c true = .ok pt) :
    point_is_valid c pt.1 pt.2 = true := by
  unfold VerifyingKey.from_raw_encoding at h
  dsimp only at h
  split at h
  · exact Except.noConfusion h
  · split at h
    · exact Except.noConfusion h
    · rename_i hcond
      obtain rfl := Except.ok.inj h
      simp only [Bool.true_and, Bool.not_eq_true'] at hcond
      simpa using hcond

theorem from_compressed_ok_valid {s : List ℕ} {c : Curve} {pt : ℕ × ℕ}
    (h : VerifyingKey.from_compressed s c true = .ok pt) :
    point_is_valid c pt.1 pt.2 = true := by
  unfold VerifyingKey.from_compressed at h
  dsimp only at h
  split at h
  · exact Except.noConfusion h
  · split at h
    · exact Except.noConfusion h
    · split at h
      · split at h
        · exact Except.noConfusion h
        · rename_i hcond
          obtain rfl := Except.ok.inj h
          simp only [Bool.true_and, Bool.not_eq_true'] at hcond
          simpa using hcond
      · split at h
        · exact Except.noConfusion h
        · rename_i hcond
          obtain rfl := Except.ok.inj h
          simp only [Bool.true_and, Bool.not_eq_true'] at hcond
          simpa using hcond

theorem from_hybrid_ok_valid {s : List ℕ} {c : Curve} {pt : ℕ × ℕ}
    (h : VerifyingKey.from_hybrid s c true = .ok pt) :
    point_is_valid c pt.1 pt.2 = true := by
  unfold VerifyingKey.from_hybrid at h
  split at h
  · exact Except.noConfusion h
  · split at h
    · exact Except.noConfusion h
    · rename_i pt0 hraw
      split at h
      · exact Except.noConfusion h
      · obtain rfl := Except.ok.inj h
        exact from_raw_encoding_ok_valid hraw

theorem from_string_ok_valid {s : List ℕ} {c : Curve} {vk : VerifyingKey}
    (h : VerifyingKey.from_string s c true = .ok vk) :
    vk.curve = c ∧ point_is_valid c vk.point.1 vk.point.2 = true := by
  unfold VerifyingKey.from_string at h
  obtain ⟨pt, hpt, hvk⟩ := except_map_ok h
  subst hvk
  refine ⟨rfl, ?_⟩
  split at hpt
  · exact from_raw_encoding_ok_valid hpt
  · split at hpt
    · split at hpt
      · exact from_hybrid_ok_valid hpt
      · split at hpt
        · exact from_raw_encoding_ok_valid hpt
        · exact Except.noConfusion hpt
    · split at hpt
      · exact from_compressed_ok_valid hpt
      · exact Except.noConfusion hpt

/-- Counterexample to C8 as stated: on the toy curve the pair (2, 2) is not
a valid point, yet `from_string` with `validate_point = true` accepts its
compressed encoding — the encoding records only x and the parity of y, and
decodes to the valid point (2, 104) instead of failing with
`MalformedPoint`. -/
theorem C8_offcurve_compressed_counterexample :
    point_is_valid toyCurve 2 2 = false ∧
    VerifyingKey.from_string
        (VerifyingKey.compressed_encode ⟨toyCurve, (2, 2)⟩) toyCurve true
      = .ok ⟨toyCurve, (2, 104)⟩ := ⟨rfl, rfl⟩

/-- Claim C8 (amended): for a pair (x, y) failing `point_is_valid`, the
raw, uncompressed and hybrid encodings are rejected by `from_string` with
`validate_point = true` with `MalformedPoint`; the compressed encoding,
which records only x and the parity of y, either fails or returns a
different, valid point — in no case is a verifying key holding an invalid
point returned. -/
theorem C8_offcurve_rejected (c : Curve) (x y : ℕ)
    (hx : x < 256 ^ c.baselen) (hy : y < 256 ^ c.baselen)
    (hinv : point_is_valid c x y = false) :
    VerifyingKey.from_string
        ((⟨c, (x, y)⟩ : VerifyingKey).to_string .raw) c true
      = .error .malformedPoint ∧
    VerifyingKey.from_string
        ((⟨c, (x, y)⟩ : VerifyingKey).to_string .uncompressed) c true
      = .error .malformedPoint ∧
    VerifyingKey.from_string
        ((⟨c, (x, y)⟩ : VerifyingKey).to_string .hybrid) c true
      = .error .malformedPoint ∧
    ∀ vk, VerifyingKey.from_string
        ((⟨c, (x, y)⟩ : VerifyingKey).to_string .compressed) c true
      = .ok vk →
      point_is_valid c vk.point.1 vk.point.2 = true ∧ vk.point ≠ (x, y) := by
  have hraw : (⟨c, (x, y)⟩ : VerifyingKey).raw_encode =
      number_to_string x c.order ++ number_to_string y c.order := rfl
  have hrawlen : (⟨c, (x, y)⟩ : VerifyingKey).raw_encode.length =
      c.verifying_key_length := by
    rw [hraw, List.length_append, nts_length, nts_length,
      Curve.verifying_key_length]
    omega
  refine ⟨?_, ?_, ?_, ?_⟩
  · show VerifyingKey.from_string ((⟨c, (x, y)⟩ : VerifyingKey).raw_encode)
        c true = _
    unfold VerifyingKey.from_string
    rw [if_pos hrawlen, hraw, from_raw_encoding_eq c x y hx hy true]
    simp [hinv, Except.map]
  · show VerifyingKey.from_string
        (4 :: (⟨c, (x, y)⟩ : VerifyingKey).raw_encode) c true = _
    unfold VerifyingKey.from_string
    have hlen1 : (4 :: (⟨c, (x, y)⟩ : VerifyingKey).raw_encode).length =
        c.verifying_key_length + 1 := by simp [hrawlen]
    rw [if_neg (by rw [hlen1]; omega), if_pos hlen1]
    have htake : (4 :: (⟨c, (x, y)⟩ : VerifyingKey).raw_encode).take 1 =
        [4] := rfl
    have hdrop : (4 :: (⟨c, (x, y)⟩ : VerifyingKey).raw_encode).drop 1 =
        (⟨c, (x, y)⟩ : VerifyingKey).raw_encode := rfl
    rw [htake, hdrop, if_neg (by simp), if_pos rfl, hraw,
      from_raw_encoding_eq c x y hx hy true]
    simp [hinv, Except.map]
  · show VerifyingKey.from_string
        ((⟨c, (x, y)⟩ : VerifyingKey).hybrid_encode) c true = _
    by_cases hpar : y % 2 = 1
    · have henc : (⟨c, (x, y)⟩ : VerifyingKey).hybrid_encode =
          7 :: (⟨c, (x, y)⟩ : VerifyingKey).raw_encode := by
        unfold VerifyingKey.hybrid_encode
        simp [hpar]
      rw [henc]
      unfold VerifyingKey.from_string
      have hlen1 : (7 :: (⟨c, (x, y)⟩ : VerifyingKey).raw_encode).length =
          c.verifying_key_length + 1 := by simp [hrawlen]
      rw [if_neg (by rw [hlen1]; omega), if_pos hlen1]
      have htake : (7 :: (⟨c, (x, y)⟩ : VerifyingKey).raw_encode).take 1 =
          [7] := rfl
      rw [htake, if_pos (by right; rfl)]
      unfold VerifyingKey.from_hybrid
      rw [htake, if_neg (by simp)]
      have hdrop : (7 :: (⟨c, (x, y)⟩ : VerifyingKey).raw_encode).drop 1 =
          (⟨c, (x, y)⟩ : VerifyingKey).raw_encode := rfl
      rw [hdrop, hraw, from_raw_encoding_eq c x y hx hy true]
      simp [hinv, Except.map]
    · have henc : (⟨c, (x, y)⟩ : VerifyingKey).hybrid_encode =
          6 :: (⟨c, (x, y)⟩ : VerifyingKey).raw_encode := by
        unfold VerifyingKey.hybrid_encode
        simp [hpar]
      rw [henc]
      unfold VerifyingKey.from_string
      have hlen1 : (6 :: (⟨c, (x, y)⟩ : VerifyingKey).raw_encode).length =
          c.verifying_key_length + 1 := by simp [hrawlen]
      rw [if_neg (by rw [hlen1]; omega), if_pos hlen1]
      have htake : (6 :: (⟨c, (x, y)⟩ : VerifyingKey).raw_encode).take 1 =
          [6] := rfl
      rw [htake, if_pos (by left; rfl)]
      unfold VerifyingKey.from_hybrid
      rw [htake, if_neg (by simp)]
      have hdrop : (6 :: (⟨c, (x, y)⟩ : VerifyingKey).raw_encode).drop 1 =
          (⟨c, (x, y)⟩ : VerifyingKey).raw_encode := rfl
      rw [hdrop, hraw, from_raw_encoding_eq c x y hx hy true]
      simp [hinv, Except.map]
  · intro vk hok
    obtain ⟨_, hvalid⟩ := from_string_ok_valid hok
    refine ⟨hvalid, ?_⟩
    intro hcontra
    rw [hcontra] at hvalid
    rw [hvalid] at hinv
    exact Bool.noConfusion hinv

/-- Witness for the amended C8 at the toy curve with the invalid pair
(2, 2). -/
theorem C8_offcurve_rejected_witness :
    VerifyingKey.from_string
        ((⟨toyCurve, (2, 2)⟩ : VerifyingKey).to_string .raw) toyCurve true
      = .error .malformedPoint ∧
    point_is_valid toyCurve
        (⟨toyCurve, (2, 104)⟩ : VerifyingKey).point.1
        (⟨toyCurve, (2, 104)⟩ : VerifyingKey).point.2 = true ∧
    (⟨toyCurve, (2, 104)⟩ : VerifyingKey).point ≠ (2, 2) :=
  ⟨(C8_offcurve_rejected toyCurve 2 2 (by decide) (by decide) (by decide)).1,
    ((C8_offcurve_rejected toyCurve 2 2 (by decide) (by decide)
        (by decide)).2.2.2 ⟨toyCurve, (2, 104)⟩ rfl).1,
    ((C8_offcurve_rejected toyCurve 2 2 (by decide) (by decide)
        (by decide)).2.2.2 ⟨toyCurve, (2, 104)⟩ rfl).2⟩

theorem sign_number_some_k (sk : SigningKey) (number : ℕ) (rng rng2 : ℕ → ℕ)
    (k : ℕ) :
    SigningKey.sign_number sk number rng (some k) =
      SigningKey.sign_number sk number rng2 (some k) := rfl

theorem sign_digest_some_k {α : Type} (sk : SigningKey) (digest : List ℕ)
    (rng rng2 : ℕ → ℕ) (sigencode : ℕ → ℕ → ℕ → α) (k : ℕ) :
    SigningKey.sign_digest sk digest rng sigencode (some k) =
      SigningKey.sign_digest sk digest rng2 sigencode (some k) := rfl

theorem deterministic_loop_rng_independent (sk : SigningKey)
    (digest : List ℕ) (hashfunc : List ℕ → List ℕ) (extra : List ℕ)
    (rng rng2 : ℕ → ℕ) :
    ∀ fuel retry_gen,
      SigningKey.deterministic_loop sk digest hashfunc extra rng
          retry_gen fuel =
        SigningKey.deterministic_loop sk digest hashfunc extra rng2
          retry_gen fuel := by
  intro fuel
  induction fuel with
  | zero => intro retry_gen; rfl
  | succ fuel ih =>
    intro retry_gen
    rw [SigningKey.deterministic_loop, SigningKey.deterministic_loop]
    rw [sign_digest_some_k sk digest rng rng2 simple_r_s]
    cases SigningKey.sign_digest sk digest rng2 simple_r_s
        (some (rfc6979_generate_k sk.curve.order sk.secexp hashfunc digest
          retry_gen extra)) with
    | error e => cases e <;> simp [ih]
    | ok v => rfl

/-- Claim C2: deterministic signing is a pure function of the message (or
digest), the secret scalar, the hash function, the curve and the extra
entropy: its result does not depend on the ambient entropy source, which is
modelled as the explicit oracle argument `rng`.  Together with the fact
that the embedding is a mathematical function of exactly these arguments,
two invocations on the same inputs return identical bytes. -/
theorem C2_sign_deterministic_pure {α : Type} (sk : SigningKey)
    (data digest : List ℕ) (hashfunc : List ℕ → List ℕ)
    (sigencode : ℕ → ℕ → ℕ → α) (extra : List ℕ) (fuel : ℕ)
    (rng rng2 : ℕ → ℕ) :
    SigningKey.sign_deterministic sk data hashfunc sigencode extra rng fuel =
      SigningKey.sign_deterministic sk data hashfunc sigencode extra
        rng2 fuel ∧
    SigningKey.sign_digest_deterministic sk digest hashfunc sigencode extra
        rng fuel =
      SigningKey.sign_digest_deterministic sk digest hashfunc sigencode extra
        rng2 fuel := by
  constructor
  · unfold SigningKey.sign_deterministic SigningKey.sign_digest_deterministic
    rw [deterministic_loop_rng_independent sk (hashfunc data) hashfunc extra
      rng rng2 fuel 0]
  · unfold SigningKey.sign_digest_deterministic
    rw [deterministic_loop_rng_independent sk digest hashfunc extra
      rng rng2 fuel 0]

theorem Private_key_sign_ok {c : Curve} {secexp number k : ℕ} {rs : ℕ × ℕ}
    (h : Private_key_sign c secexp number k = .ok rs) :
    rs.1 ≠ 0 ∧ rs.2 ≠ 0 := by
  unfold Private_key_sign at h
  split at h
  · exact Except.noConfusion h
  · split at h
    · exact Except.noConfusion h
    · rename_i hr hs
      obtain rfl := Except.ok.inj h
      exact ⟨hr, hs⟩

theorem sign_digest_ok_rs {sk : SigningKey} {digest : List ℕ} {rng : ℕ → ℕ}
    {k r s o : ℕ}
    (h : SigningKey.sign_digest sk digest rng simple_r_s (some k)
      = .ok (r, s, o)) : r ≠ 0 ∧ s ≠ 0 := by
  unfold SigningKey.sign_digest at h
  split at h
  · exact Except.noConfusion h
  · obtain ⟨rs, hrs, heq⟩ := except_map_ok h
    unfold SigningKey.sign_number at hrs
    dsimp only at hrs
    split at hrs
    · have hnz := Private_key_sign_ok hrs
      have h1 : r = rs.1 ∧ s = rs.2 := by
        unfold simple_r_s at heq
        exact ⟨congrArg (fun t => t.1) heq, congrArg (fun t => t.2.1) heq⟩
      rw [h1.1, h1.2]
      exact hnz
    · exact Except.noConfusion hrs

theorem deterministic_loop_ne_rszero {α : Type} (sk : SigningKey)
    (digest : List ℕ) (hashfunc : List ℕ → List ℕ) (extra : List ℕ)
    (rng : ℕ → ℕ) (sigencode : ℕ → ℕ → ℕ → α) :
    ∀ fuel retry_gen,
      SigningKey.deterministic_loop sk digest hashfunc extra rng retry_gen
        fuel ≠ some (.error .rsZero) := by
  intro fuel
  induction fuel with
  | zero =>
    intro retry_gen
    simp [SigningKey.deterministic_loop]
  | succ fuel ih =>
    intro retry_gen
    rw [SigningKey.deterministic_loop]
    cases h : SigningKey.sign_digest sk digest rng simple_r_s
        (some (rfc6979_generate_k sk.curve.order sk.secexp hashfunc digest
          retry_gen extra)) with
    | error e => cases e <;> simp [ih]
    | ok v => simp

/-- Claim C3: the deterministic signing loop never fails with `RSZero`:
whenever the inner ECDSA signing step returns `RSZero`, the loop increments
the retry counter, feeds it to the RFC 6979 generator for a fresh nonce and
tries again; any signature it returns has non-zero r and s, and
`sign_digest_deterministic` never surfaces `RSZero`. -/
theorem C3_deterministic_retries_rszero {α : Type} (sk : SigningKey)
    (digest : List ℕ) (hashfunc : List ℕ → List ℕ) (extra : List ℕ)
    (rng : ℕ → ℕ) (sigencode : ℕ → ℕ → ℕ → α) (fuel retry_gen : ℕ) :
    SigningKey.deterministic_loop sk digest hashfunc extra rng retry_gen fuel
        ≠ some (.error .rsZero)
    ∧ (SigningKey.sign_digest sk digest rng simple_r_s
          (some (rfc6979_generate_k sk.curve.order sk.secexp hashfunc digest
            retry_gen extra)) = .error .rsZero →
        SigningKey.deterministic_loop sk digest hashfunc extra rng retry_gen
            (fuel + 1) =
          SigningKey.deterministic_loop sk digest hashfunc extra rng
            (retry_gen + 1) fuel)
    ∧ (∀ r s o,
        SigningKey.deterministic_loop sk digest hashfunc extra rng retry_gen
            fuel = some (.ok (r, s, o)) → r ≠ 0 ∧ s ≠ 0)
    ∧ SigningKey.sign_digest_deterministic sk digest hashfunc sigencode extra
        rng fuel ≠ some (.error .rsZero) := by
  refine ⟨deterministic_loop_ne_rszero sk digest hashfunc extra rng sigencode
    fuel retry_gen, ?_, ?_, ?_⟩
  · intro h
    rw [SigningKey.deterministic_loop, h]
  · intro r s o
    induction fuel generalizing retry_gen with
    | zero =>
      intro h
      simp [SigningKey.deterministic_loop] at h
    | succ fuel ih =>
      intro h
      rw [SigningKey.deterministic_loop] at h
      revert h
      cases hsd : SigningKey.sign_digest sk digest rng simple_r_s
          (some (rfc6979_generate_k sk.curve.order sk.secexp hashfunc digest
            retry_gen extra)) with
      | error e =>
        cases e <;> intro h
        · exact Except.noConfusion (Option.some.inj h)
        · exact Except.noConfusion (Option.some.inj h)
        · exact Except.noConfusion (Option.some.inj h)
        · exact ih (retry_gen + 1) h
        · exact Except.noConfusion (Option.some.inj h)
        · exact Except.noConfusion (Option.some.inj h)
      | ok v =>
        intro h
        have hv := Except.ok.inj (Option.some.inj h)
        rw [hv] at hsd
        exact sign_digest_ok_rs hsd
  · unfold SigningKey.sign_digest_deterministic
    cases hloop : SigningKey.deterministic_loop sk digest hashfunc extra rng
        0 fuel with
    | none => simp
    | some res =>
      cases res with
      | error e =>
        have hne := deterministic_loop_ne_rszero sk digest hashfunc extra rng
          sigencode fuel 0
        rw [hloop] at hne
        cases e <;> simp [Except.map]
        · exact absurd rfl hne
      | ok v => simp [Except.map]

/-- Witness for C3 at the toy curve: with the constant hash the first
RFC 6979 nonce is k = 1 and the digest 0x0119 makes s = 0, so the loop
takes the retry step, and the deterministic signer still never returns
`RSZero`. -/
theorem C3_deterministic_retries_rszero_witness :
    SigningKey.deterministic_loop toySK [1, 25] constHash [] constRng 0 2 =
      SigningKey.deterministic_loop toySK [1, 25] constHash [] constRng 1 1 ∧
    SigningKey.sign_digest_deterministic toySK [1, 25] constHash
        sigencode_string [] constRng 2 ≠ some (.error .rsZero) :=
  ⟨(C3_deterministic_retries_rszero toySK [1, 25] constHash [] constRng
      sigencode_string 1 0).2.1 rfl,
    (C3_deterministic_retries_rszero toySK [1, 25] constHash [] constRng
      sigencode_string 2 0).2.2.2⟩

/-- Claim C7: in the caller-supplied-k path, `sign_number` performs the
single ECDSA signing step and nothing else (no retry), so it fails with
`RSZero` exactly when that computation yields r = 0 or s = 0, and
`sign_digest` and `sign` propagate the failure to the caller. -/
theorem C7_random_k_rszero_propagates {α : Type} (sk : SigningKey)
    (number : ℕ) (rng : ℕ → ℕ) (k : ℕ) (h1 : 1 ≤ k)
    (h2 : k < sk.curve.order) (digest data : List ℕ)
    (hashfunc : List ℕ → List ℕ) (sigencode : ℕ → ℕ → ℕ → α)
    (hd : digest.length ≤ sk.curve.baselen)
    (hh : (hashfunc data).length ≤ sk.curve.baselen) :
    SigningKey.sign_number sk number rng (some k) =
      Private_key_sign sk.curve sk.secexp number k
    ∧ (Private_key_sign sk.curve sk.secexp number k = .error .rsZero ↔
        (sig_r sk.curve k = 0 ∨ sig_s sk.curve sk.secexp number k = 0))
    ∧ (Private_key_sign sk.curve sk.secexp (string_to_number digest) k
          = .error .rsZero →
        SigningKey.sign_digest sk digest rng sigencode (some k)
          = .error .rsZero)
    ∧ (Private_key_sign sk.curve sk.secexp
          (string_to_number (hashfunc data)) k = .error .rsZero →
        SigningKey.sign sk data rng hashfunc sigencode (some k)
          = .error .rsZero) := by
  have hmain : SigningKey.sign_number sk number rng (some k) =
      Private_key_sign sk.curve sk.secexp number k := by
    unfold SigningKey.sign_number
    dsimp only
    rw [if_pos ⟨h1, h2⟩]
  have hdig : ∀ (d : List ℕ), d.length ≤ sk.curve.baselen →
      Private_key_sign sk.curve sk.secexp (string_to_number d) k
        = .error .rsZero →
      SigningKey.sign_digest sk d rng sigencode (some k)
        = .error .rsZero := by
    intro d hlen hpk
    unfold SigningKey.sign_digest
    rw [if_neg (by omega)]
    have : SigningKey.sign_number sk (string_to_number d) rng (some k) =
        Private_key_sign sk.curve sk.secexp (string_to_number d) k := by
      unfold SigningKey.sign_number
      dsimp only
      rw [if_pos ⟨h1, h2⟩]
    rw [this, hpk]
    rfl
  refine ⟨hmain, ?_, hdig digest hd, ?_⟩
  · unfold Private_key_sign
    by_cases hr : sig_r sk.curve k = 0
    · simp [hr]
    · by_cases hs : sig_s sk.curve sk.secexp number k = 0
      · simp [hr, hs]
      · simp [hr, hs]
  · intro hpk
    exact hdig (hashfunc data) hh hpk

/-- Witness for C7 at the toy curve: with d = 1, k = 1 and digest 0x0119
(the number 281 = n - Gx mod n) the signing equation gives s = 0, and the
failure is `RSZero` with no retry, propagating through `sign_digest`. -/
theorem C7_random_k_rszero_propagates_witness :
    SigningKey.sign_number toySK 281 constRng (some 1) = .error .rsZero ∧
    SigningKey.sign_digest toySK [1, 25] constRng sigencode_string (some 1)
      = .error .rsZero :=
  ⟨(C7_random_k_rszero_propagates toySK 281 constRng 1 (by decide)
        (by decide) [1, 25] [] constHash sigencode_string (by decide)
        (by decide)).1.trans rfl,
    (C7_random_k_rszero_propagates toySK 281 constRng 1 (by decide)
        (by decide) [1, 25] [] constHash sigencode_string (by decide)
        (by decide)).2.2.1 rfl⟩

theorem bytesOfNat_length (n : ℕ) : (bytesOfNat n).length = byteLen n :=
  bigEndian_length _ _

theorem stn_bytesOfNat (n : ℕ) : string_to_number (bytesOfNat n) = n :=
  string_to_number_bigEndian_of_lt (byteLen_lt n)

theorem read_length_encode (l : ℕ) (rest : List ℕ) :
    read_length (encode_length l ++ rest) = .ok (l, rest) := by
  unfold encode_length
  by_cases hl : l < 128
  · rw [if_pos hl]
    show read_length (l :: rest) = .ok (l, rest)
    unfold read_length
    simp only []
    rw [if_pos hl]
  · rw [if_neg hl]
    show read_length ((128 + (bytesOfNat l).length) :: (bytesOfNat l ++ rest))
      = .ok (l, rest)
    unfold read_length
    simp only []
    have hB : 1 ≤ (bytesOfNat l).length := by
      rw [bytesOfNat_length]
      exact byteLen_pos l
    rw [if_neg (by omega)]
    have hn : 128 + (bytesOfNat l).length - 128 = (bytesOfNat l).length := by
      omega
    rw [hn]
    rw [if_neg (by omega)]
    rw [if_neg (by rw [List.length_append]; omega)]
    rw [List.take_left, List.drop_left]
    rw [if_neg (bytesOfNat_head_ne_zero (by omega))]
    rw [stn_bytesOfNat]
    rw [if_neg (by omega)]

theorem remove_tlv_encode (tag : ℕ) (content rest : List ℕ) :
    remove_tlv tag (encode_tlv tag content ++ rest) = .ok (content, rest) := by
  show remove_tlv tag
      ((tag :: (encode_length content.length ++ content)) ++ rest) = _
  rw [List.cons_append, List.append_assoc]
  unfold remove_tlv
  simp only []
  rw [if_neg (by simp)]
  rw [read_length_encode content.length (content ++ rest)]
  simp only []
  rw [if_neg (by rw [List.length_append]; omega)]
  rw [List.take_left, List.drop_left]

theorem remove_tlv_encode_nil (tag : ℕ) (content : List ℕ) :
    remove_tlv tag (encode_tlv tag content) = .ok (content, []) := by
  rw [← List.append_nil (encode_tlv tag content)]
  exact remove_tlv_encode tag content []

theorem byteLen_eq_one {n : ℕ} (h : n < 256) : byteLen n = 1 := by
  unfold byteLen
  cases n with
  | zero => rfl
  | succ m =>
    unfold byteLenAux
    rw [if_pos h]

theorem byteLen_ge_imp {n : ℕ} (h : 2 ≤ byteLen n) : 256 ≤ n := by
  by_contra hlt
  have := byteLen_eq_one (show n < 256 by omega)
  omega

theorem stn_cons_zero (ds : List ℕ) :
    string_to_number (0 :: ds) = string_to_number ds := by
  show ds.foldl (fun acc b => acc * 256 + b) (0 * 256 + 0) =
    ds.foldl (fun acc b => acc * 256 + b) 0
  norm_num

theorem remove_integer_encode (n : ℕ) (rest : List ℕ) :
    remove_integer (encode_integer n ++ rest) = .ok (n, rest) := by
  have hBpos : 1 ≤ (bytesOfNat n).length := by
    rw [bytesOfNat_length]
    exact byteLen_pos n
  obtain ⟨b1, tl, hds⟩ : ∃ b1 tl, bytesOfNat n = b1 :: tl := by
    cases hh : bytesOfNat n with
    | nil => rw [hh] at hBpos; simp at hBpos
    | cons b1 tl => exact ⟨b1, tl, rfl⟩
  unfold encode_integer
  by_cases hhead : 128 ≤ (bytesOfNat n).headD 0
  · rw [if_pos hhead]
    unfold remove_integer
    rw [remove_tlv_encode 2 (0 :: bytesOfNat n) rest]
    rw [hds]
    have hb1 : 128 ≤ b1 := by rwa [hds] at hhead
    simp only []
    rw [if_neg (by omega), if_neg (by omega)]
    rw [← hds, stn_cons_zero, stn_bytesOfNat]
  · rw [if_neg hhead]
    unfold remove_integer
    rw [remove_tlv_encode 2 (bytesOfNat n) rest, hds]
    have hb1 : b1 < 128 := by
      rw [hds] at hhead
      simp only [List.headD_cons] at hhead
      omega
    cases tl with
    | nil =>
      simp only []
      rw [if_neg (by omega)]
      have : n = b1 := by
        have := stn_bytesOfNat n
        rw [hds] at this
        simpa [string_to_number] using this.symm
      rw [← this]
    | cons b2 tl2 =>
      simp only []
      rw [if_neg (by omega)]
      have hb1ne : b1 ≠ 0 := by
        have hlen2 : 2 ≤ byteLen n := by
          have := bytesOfNat_length n
          rw [hds] at this
          simp at this
          omega
        have hge := byteLen_ge_imp hlen2
        have := bytesOfNat_head_ne_zero (show 1 ≤ n by omega)
        rw [hds] at this
        intro hb0
        exact this (by rw [hb0]; rfl)
      rw [if_neg (by intro hcon; exact hb1ne hcon.1)]
      rw [← hds, stn_bytesOfNat]

theorem remove_constructed_encode (tag : ℕ) (htag : tag < 32)
    (content rest : List ℕ) :
    remove_constructed (encode_constructed tag content ++ rest) =
      .ok (tag, content, rest) := by
  unfold encode_constructed
  have hform : encode_tlv (160 + tag) content ++ rest =
      (160 + tag) :: ((encode_length content.length ++ content) ++ rest) := by
    show ((160 + tag) :: (encode_length content.length ++ content)) ++ rest = _
    rw [List.cons_append]
  rw [hform]
  unfold remove_constructed
  simp only []
  rw [if_pos (by omega), ← hform, remove_tlv_encode (160 + tag) content rest]
  simp only []
  have htag0 : 160 + tag - 160 = tag := by omega
  rw [htag0]

theorem SigningKey_from_der_generic (registry : List Curve) (c : Curve)
    (v : ℕ) (pk extra : List ℕ)
    (hreg : find_curve registry c.oid = some c) :
    SigningKey.from_der registry
        (encode_sequence (encode_integer v ++ (encode_octet_string pk ++
          (encode_constructed 0 c.encoded_oid ++ extra)))) =
      if v ≠ 1 then .error .unexpectedDER
      else SigningKey.from_string
        (if pk.length < c.baselen then
          List.replicate (c.baselen - pk.length) 0 ++ pk
        else pk) c := by
  unfold SigningKey.from_der
  have h0 : remove_sequence
      (encode_sequence (encode_integer v ++ (encode_octet_string pk ++
        (encode_constructed 0 c.encoded_oid ++ extra)))) =
      .ok (encode_integer v ++ (encode_octet_string pk ++
        (encode_constructed 0 c.encoded_oid ++ extra)), []) :=
    remove_tlv_encode_nil 48 _
  rw [h0]
  simp only []
  rw [if_neg (by simp)]
  rw [remove_integer_encode v _]
  simp only []
  by_cases hv : v ≠ 1
  · rw [if_pos hv, if_pos hv]
  · rw [if_neg hv, if_neg hv]
    have h1 : remove_octet_string (encode_octet_string pk ++
        (encode_constructed 0 c.encoded_oid ++ extra)) =
        .ok (pk, encode_constructed 0 c.encoded_oid ++ extra) :=
      remove_tlv_encode 4 pk _
    rw [h1]
    simp only []
    rw [remove_constructed_encode 0 (by omega) c.encoded_oid extra]
    simp only []
    rw [if_neg (by simp)]
    have hoid : remove_object c.encoded_oid = .ok (c.oid, []) :=
      remove_tlv_encode_nil 6 _
    rw [hoid]
    simp only []
    rw [if_neg (by simp)]
    rw [hreg]

/-- Claim C10: `SigningKey.from_der` parses only the version integer (which
must be 1), the private-key octet string (zero-padded on the left up to
`baselen` when shorter) and the tag-0 curve object identifier: every byte
after the tag-0 field inside the top-level sequence — in particular any
tag-1 public-key field, well formed or not — is ignored, the result being a
function of the three parsed fields alone; trailing bytes after the
top-level sequence are rejected. -/
theorem C10_from_der_ignores_rest (registry : List Curve) (c : Curve)
    (v : ℕ) (pk extra extra2 body t : List ℕ)
    (hreg : find_curve registry c.oid = some c) (ht : t ≠ []) :
    (SigningKey.from_der registry
        (encode_sequence (encode_integer v ++ (encode_octet_string pk ++
          (encode_constructed 0 c.encoded_oid ++ extra)))) =
      if v ≠ 1 then .error .unexpectedDER
      else SigningKey.from_string
        (if pk.length < c.baselen then
          List.replicate (c.baselen - pk.length) 0 ++ pk
        else pk) c)
    ∧ SigningKey.from_der registry
        (encode_sequence (encode_integer v ++ (encode_octet_string pk ++
          (encode_constructed 0 c.encoded_oid ++ extra)))) =
      SigningKey.from_der registry
        (encode_sequence (encode_integer v ++ (encode_octet_string pk ++
          (encode_constructed 0 c.encoded_oid ++ extra2))))
    ∧ SigningKey.from_der registry (encode_sequence body ++ t) =
        .error .unexpectedDER := by
  refine ⟨SigningKey_from_der_generic registry c v pk extra hreg, ?_, ?_⟩
  · rw [SigningKey_from_der_generic registry c v pk extra hreg,
      SigningKey_from_der_generic registry c v pk extra2 hreg]
  · unfold SigningKey.from_der
    have hb : remove_sequence (encode_sequence body ++ t) = .ok (body, t) :=
      remove_tlv_encode 48 body t
    rw [hb]
    simp only []
    rw [if_pos ht]

/-- Witness for C10 at the toy curve: two different ignored tails (one of
them a malformed tag-1 blob) give the same signing key, a version of 2 is
rejected, and trailing bytes after the sequence are rejected. -/
theorem C10_from_der_ignores_rest_witness :
    (SigningKey.from_der [toyCurve]
        (encode_sequence (encode_integer 1 ++ (encode_octet_string [0, 1] ++
          (encode_constructed 0 toyCurve.encoded_oid ++ [161, 1, 99])))) =
      if (1 : ℕ) ≠ 1 then .error .unexpectedDER
      else SigningKey.from_string
        (if ([0, 1] : List ℕ).length < toyCurve.baselen then
          List.replicate (toyCurve.baselen - ([0, 1] : List ℕ).length) 0
            ++ [0, 1]
        else [0, 1]) toyCurve)
    ∧ SigningKey.from_der [toyCurve]
        (encode_sequence (encode_integer 1 ++ (encode_octet_string [0, 1] ++
          (encode_constructed 0 toyCurve.encoded_oid ++ [161, 1, 99])))) =
      SigningKey.from_der [toyCurve]
        (encode_sequence (encode_integer 1 ++ (encode_octet_string [0, 1] ++
          (encode_constructed 0 toyCurve.encoded_oid ++ [])))) :=
  ⟨(C10_from_der_ignores_rest [toyCurve] toyCurve 1 [0, 1] [161, 1, 99] []
      [] [0] (by decide) (by decide)).1,
    (C10_from_der_ignores_rest [toyCurve] toyCurve 1 [0, 1] [161, 1, 99] []
      [] [0] (by decide) (by decide)).2.1⟩

theorem SigningKey_der_roundtrip (registry : List Curve) (sk : SigningKey)
    (enc : VerifyingKey.PointEncoding)
    (hreg : find_curve registry sk.curve.oid = some sk.curve)
    (hd1 : 1 ≤ sk.secexp) (hd2 : sk.secexp < sk.curve.order) :
    SigningKey.from_der registry (sk.to_der enc) = .ok sk := by
  have hassoc : sk.to_der enc =
      encode_sequence (encode_integer 1 ++ (encode_octet_string sk.to_string
        ++ (encode_constructed 0 sk.curve.encoded_oid ++
          encode_constructed 1 (encode_bitstring
            (0 :: (sk.get_verifying_key).to_string enc))))) := by
    unfold SigningKey.to_der
    rw [List.append_assoc, List.append_assoc]
  rw [hassoc,
    SigningKey_from_der_generic registry sk.curve 1 sk.to_string _ hreg]
  rw [if_neg (by omega)]
  have hlen : sk.to_string.length = sk.curve.baselen := nts_length _ _
  rw [if_neg (by omega)]
  unfold SigningKey.from_string
  rw [if_neg (by omega)]
  have hsec : string_to_number sk.to_string = sk.secexp := by
    unfold SigningKey.to_string
    exact stn_nts _ (lt_trans hd2 (byteLen_lt sk.curve.order))
  rw [hsec]
  unfold SigningKey.from_secret_exponent
  rw [if_pos ⟨hd1, hd2⟩]

theorem VerifyingKey_from_der_generic (registry : List Curve) (c : Curve)
    (t : List ℕ) (hreg : find_curve registry c.oid = some c) :
    VerifyingKey.from_der registry
        (encode_sequence (encode_sequence (encoded_oid_ecPublicKey ++
          c.encoded_oid) ++ encode_bitstring t)) =
      if t.take 1 ≠ [0] ∨ (t.drop 1).length = c.verifying_key_length then
        .error .unexpectedDER
      else VerifyingKey.from_string (t.drop 1) c := by
  unfold VerifyingKey.from_der
  have h0 : remove_sequence
      (encode_sequence (encode_sequence (encoded_oid_ecPublicKey ++
        c.encoded_oid) ++ encode_bitstring t)) =
      .ok (encode_sequence (encoded_oid_ecPublicKey ++ c.encoded_oid) ++
        encode_bitstring t, []) :=
    remove_tlv_encode_nil 48 _
  rw [h0]
  simp only []
  rw [if_neg (by simp)]
  have h1 : remove_sequence (encode_sequence (encoded_oid_ecPublicKey ++
      c.encoded_oid) ++ encode_bitstring t) =
      .ok (encoded_oid_ecPublicKey ++ c.encoded_oid, encode_bitstring t) :=
    remove_tlv_encode 48 _ _
  rw [h1]
  simp only []
  have h2 : remove_object (encoded_oid_ecPublicKey ++ c.encoded_oid) =
      .ok (oid_ecPublicKey, c.encoded_oid) :=
    remove_tlv_encode 6 _ _
  rw [h2]
  simp only []
  have h3 : remove_object c.encoded_oid = .ok (c.oid, []) :=
    remove_tlv_encode_nil 6 _
  rw [h3]
  simp only []
  rw [if_neg (by simp), if_neg (by simp), hreg]
  simp only []
  have h4 : remove_bitstring (encode_bitstring t) = .ok (t, []) :=
    remove_tlv_encode_nil 3 _
  rw [h4]
  simp only []
  rw [if_neg (by simp)]

theorem from_string_uncompressed_ok (c : Curve) (x y : ℕ)
    (hx : x < 256 ^ c.baselen) (hy : y < 256 ^ c.baselen)
    (hval : point_is_valid c x y = true) :
    VerifyingKey.from_string
        (4 :: (⟨c, (x, y)⟩ : VerifyingKey).raw_encode) c true
      = .ok ⟨c, (x, y)⟩ := by
  have hraw : (⟨c, (x, y)⟩ : VerifyingKey).raw_encode =
      number_to_string x c.order ++ number_to_string y c.order := rfl
  have hrawlen : (⟨c, (x, y)⟩ : VerifyingKey).raw_encode.length =
      c.verifying_key_length := by
    rw [hraw, List.length_append, nts_length, nts_length,
      Curve.verifying_key_length]
    omega
  unfold VerifyingKey.from_string
  have hlen1 : (4 :: (⟨c, (x, y)⟩ : VerifyingKey).raw_encode).length =
      c.verifying_key_length + 1 := by simp [hrawlen]
  rw [if_neg (by rw [hlen1]; omega), if_pos hlen1]
  have htake : (4 :: (⟨c, (x, y)⟩ : VerifyingKey).raw_encode).take 1 =
      [4] := rfl
  have hdrop : (4 :: (⟨c, (x, y)⟩ : VerifyingKey).raw_encode).drop 1 =
      (⟨c, (x, y)⟩ : VerifyingKey).raw_encode := rfl
  rw [htake, hdrop, if_neg (by simp), if_pos rfl, hraw,
    from_raw_encoding_eq c x y hx hy true]
  simp [hval, Except.map, VerifyingKey.from_public_point]

/-- Claim C9: `to_der` emits an SPKI also for the raw point encoding, but
`from_der` rejects any SPKI whose bit-string payload lacks the leading zero
unused-bits byte or whose remaining point bytes have the raw-encoding
length `2 * baselen`; hence the DER round trip fails for the raw encoding
and succeeds for the uncompressed one. -/
theorem C9_vk_der_raw_rejected (registry : List Curve) (c : Curve)
    (x y : ℕ) (t : List ℕ) (hreg : find_curve registry c.oid = some c)
    (hx : x < 256 ^ c.baselen) (hy : y < 256 ^ c.baselen)
    (hval : point_is_valid c x y = true)
    (ht : t.take 1 ≠ [0] ∨ (t.drop 1).length = c.verifying_key_length) :
    VerifyingKey.from_der registry
        (encode_sequence (encode_sequence (encoded_oid_ecPublicKey ++
          c.encoded_oid) ++ encode_bitstring t)) = .error .unexpectedDER
    ∧ VerifyingKey.from_der registry
        ((⟨c, (x, y)⟩ : VerifyingKey).to_der .raw) = .error .unexpectedDER
    ∧ VerifyingKey.from_der registry
        ((⟨c, (x, y)⟩ : VerifyingKey).to_der .uncompressed)
      = .ok ⟨c, (x, y)⟩ := by
  have hraw : (⟨c, (x, y)⟩ : VerifyingKey).raw_encode =
      number_to_string x c.order ++ number_to_string y c.order := rfl
  have hrawlen : (⟨c, (x, y)⟩ : VerifyingKey).raw_encode.length =
      c.verifying_key_length := by
    rw [hraw, List.length_append, nts_length, nts_length,
      Curve.verifying_key_length]
    omega
  refine ⟨?_, ?_, ?_⟩
  · rw [VerifyingKey_from_der_generic registry c t hreg, if_pos ht]
  · show VerifyingKey.from_der registry
        (encode_sequence (encode_sequence (encoded_oid_ecPublicKey ++
          c.encoded_oid) ++ encode_bitstring
            (0 :: (⟨c, (x, y)⟩ : VerifyingKey).raw_encode)))
      = .error .unexpectedDER
    rw [VerifyingKey_from_der_generic registry c _ hreg]
    rw [if_pos (by right; simpa using hrawlen)]
  · show VerifyingKey.from_der registry
        (encode_sequence (encode_sequence (encoded_oid_ecPublicKey ++
          c.encoded_oid) ++ encode_bitstring
            (0 :: 4 :: (⟨c, (x, y)⟩ : VerifyingKey).raw_encode)))
      = .ok ⟨c, (x, y)⟩
    rw [VerifyingKey_from_der_generic registry c _ hreg]
    rw [if_neg (by
      simp only [List.take_cons, List.drop_succ_cons]
      push_neg
      constructor
      · rfl
      · show (4 :: (⟨c, (x, y)⟩ : VerifyingKey).raw_encode).length ≠ _
        simp [hrawlen])]
    show VerifyingKey.from_string
        (4 :: (⟨c, (x, y)⟩ : VerifyingKey).raw_encode) c true = _
    exact from_string_uncompressed_ok c x y hx hy hval

/-- Witness for C9 at the toy curve. -/
theorem C9_vk_der_raw_rejected_witness :
    VerifyingKey.from_der [toyCurve]
        (encode_sequence (encode_sequence (encoded_oid_ecPublicKey ++
          toyCurve.encoded_oid) ++ encode_bitstring [1, 2]))
      = .error .unexpectedDER
    ∧ VerifyingKey.from_der [toyCurve] (toyVK.to_der .raw)
      = .error .unexpectedDER
    ∧ VerifyingKey.from_der [toyCurve] (toyVK.to_der .uncompressed)
      = .ok toyVK :=
  ⟨(C9_vk_der_raw_rejected [toyCurve] toyCurve 2 104 [1, 2] (by decide)
      (by decide) (by decide) (by decide) (by decide)).1,
    (C9_vk_der_raw_rejected [toyCurve] toyCurve 2 104 [1, 2] (by decide)
      (by decide) (by decide) (by decide) (by decide)).2.1,
    (C9_vk_der_raw_rejected [toyCurve] toyCurve 2 104 [1, 2] (by decide)
      (by decide) (by decide) (by decide) (by decide)).2.2⟩

theorem b64val_b64char : ∀ v, v < 64 → b64val (b64char v) = v := by decide

theorem b64char_ne : ∀ v, v < 64 →
    b64char v ≠ 61 ∧ b64char v ≠ 10 ∧ b64char v ≠ 45 := by decide

theorem mem_b64encode_ne {d : List ℕ} (hd : ∀ b ∈ d, b < 256) :
    ∀ ch ∈ b64encode d, ch ≠ 10 ∧ ch ≠ 45 := by
  induction d using b64encode.induct with
  | case1 => intro ch hch; simp [b64encode] at hch
  | case2 a =>
    intro ch hch
    have ha : a < 256 := hd a (by simp)
    simp [b64encode] at hch
    rcases hch with h | h | h
    · subst h
      have := b64char_ne (a / 4) (by omega)
      exact ⟨this.2.1, this.2.2⟩
    · subst h
      have := b64char_ne (a % 4 * 16) (by omega)
      exact ⟨this.2.1, this.2.2⟩
    · subst h; exact ⟨by norm_num, by norm_num⟩
  | case3 a b =>
    intro ch hch
    have ha : a < 256 := hd a (by simp)
    have hb : b < 256 := hd b (by simp)
    simp [b64encode] at hch
    rcases hch with h | h | h | h
    · subst h
      have := b64char_ne (a / 4) (by omega)
      exact ⟨this.2.1, this.2.2⟩
    · subst h
      have := b64char_ne (a % 4 * 16 + b / 16) (by omega)
      exact ⟨this.2.1, this.2.2⟩
    · subst h
      have := b64char_ne (b % 16 * 4) (by omega)
      exact ⟨this.2.1, this.2.2⟩
    · subst h; exact ⟨by norm_num, by norm_num⟩
  | case4 a b c rest ih =>
    intro ch hch
    have ha : a < 256 := hd a (by simp)
    have hb : b < 256 := hd b (by simp)
    have hc : c < 256 := hd c (by simp)
    have hrest : ∀ x ∈ rest, x < 256 := fun x hx => hd x (by simp [hx])
    rw [b64encode] at hch
    simp only [List.mem_cons] at hch
    rcases hch with h | h | h | h | h
    · subst h
      have := b64char_ne (a / 4) (by omega)
      exact ⟨this.2.1, this.2.2⟩
    · subst h
      have := b64char_ne (a % 4 * 16 + b / 16) (by omega)
      exact ⟨this.2.1, this.2.2⟩
    · subst h
      have := b64char_ne (b % 16 * 4 + c / 64) (by omega)
      exact ⟨this.2.1, this.2.2⟩
    · subst h
      have := b64char_ne (c % 64) (by omega)
      exact ⟨this.2.1, this.2.2⟩
    · exact ih hrest ch h

theorem b64_roundtrip {d : List ℕ} (hd : ∀ b ∈ d, b < 256) :
    b64decode (b64encode d) = d := by
  induction d using b64encode.induct with
  | case1 => rfl
  | case2 a =>
    have ha : a < 256 := hd a (by simp)
    rw [b64encode]
    unfold b64decode
    rw [if_pos rfl]
    have h1 : b64val (b64char (a / 4)) = a / 4 := b64val_b64char _ (by omega)
    have h2 : b64val (b64char (a % 4 * 16)) = a % 4 * 16 :=
      b64val_b64char _ (by omega)
    rw [h1, h2]
    have : a / 4 * 4 + a % 4 * 16 / 16 = a := by omega
    rw [this]
  | case3 a b =>
    have ha : a < 256 := hd a (by simp)
    have hb : b < 256 := hd b (by simp)
    rw [b64encode]
    unfold b64decode
    have hne3 := (b64char_ne (b % 16 * 4) (by omega)).1
    rw [if_neg hne3, if_pos rfl]
    have h1 : b64val (b64char (a / 4)) = a / 4 := b64val_b64char _ (by omega)
    have h2 : b64val (b64char (a % 4 * 16 + b / 16)) = a % 4 * 16 + b / 16 :=
      b64val_b64char _ (by omega)
    have h3 : b64val (b64char (b % 16 * 4)) = b % 16 * 4 :=
      b64val_b64char _ (by omega)
    rw [h1, h2, h3]
    have e1 : a / 4 * 4 + (a % 4 * 16 + b / 16) / 16 = a := by omega
    have e2 : (a % 4 * 16 + b / 16) % 16 * 16 + b % 16 * 4 / 4 = b := by omega
    rw [e1, e2]
  | case4 a b c rest ih =>
    have ha : a < 256 := hd a (by simp)
    have hb : b < 256 := hd b (by simp)
    have hc : c < 256 := hd c (by simp)
    have hrest : ∀ x ∈ rest, x < 256 := fun x hx => hd x (by simp [hx])
    rw [b64encode]
    unfold b64decode
    have hne3 := (b64char_ne (b % 16 * 4 + c / 64) (by omega)).1
    have hne4 := (b64char_ne (c % 64) (by omega)).1
    rw [if_neg hne3, if_neg hne4]
    have h1 : b64val (b64char (a / 4)) = a / 4 := b64val_b64char _ (by omega)
    have h2 : b64val (b64char (a % 4 * 16 + b / 16)) = a % 4 * 16 + b / 16 :=
      b64val_b64char _ (by omega)
    have h3 : b64val (b64char (b % 16 * 4 + c / 64)) = b % 16 * 4 + c / 64 :=
      b64val_b64char _ (by omega)
    have h4 : b64val (b64char (c % 64)) = c % 64 := b64val_b64char _ (by omega)
    rw [h1, h2, h3, h4]
    have e1 : a / 4 * 4 + (a % 4 * 16 + b / 16) / 16 = a := by omega
    have e2 : (a % 4 * 16 + b / 16) % 16 * 16 + (b % 16 * 4 + c / 64) / 4 = b := by
      omega
    have e3 : (b % 16 * 4 + c / 64) % 4 * 64 + c % 64 = c := by omega
    rw [e1, e2, e3, ih hrest]

theorem splitLines_append (line : List ℕ) (rest : List ℕ)
    (h10 : 10 ∉ line) :
    splitLines (line ++ 10 :: rest) = line :: splitLines rest := by
  induction line with
  | nil =>
    show splitLines (10 :: rest) = [] :: splitLines rest
    rw [splitLines, if_pos rfl]
  | cons c cs ih =>
    have hc : c ≠ 10 := fun hch => h10 (by simp [hch])
    have h10c : 10 ∉ cs := fun hmem => h10 (by simp [hmem])
    rw [List.cons_append, splitLines, if_neg hc, ih h10c]

theorem pemKeep_begin (label : List ℕ) :
    pemKeep (pemBeginLine label) = false := by
  unfold pemKeep pemBeginLine
  have h5 : (((dashes5 ++ [66, 69, 71, 73, 78, 32]) ++ label) ++ dashes5
      : List ℕ).take 5 = dashes5 := by
    rw [List.append_assoc, List.append_assoc]
    exact List.take_left' rfl
  rw [h5]
  simp

theorem pemKeep_end (label : List ℕ) :
    pemKeep (pemEndLine label) = false := by
  unfold pemKeep pemEndLine
  have h5 : (((dashes5 ++ [69, 78, 68, 32]) ++ label) ++ dashes5
      : List ℕ).take 5 = dashes5 := by
    rw [List.append_assoc, List.append_assoc]
    exact List.take_left' rfl
  rw [h5]
  simp

theorem chunksAux_join (fuel : ℕ) :
    ∀ s suffix, s.length ≤ fuel → (∀ ch ∈ s, ch ≠ 10 ∧ ch ≠ 45) →
      ((splitLines (chunksAux fuel s ++ suffix)).filter pemKeep).flatten =
        s ++ ((splitLines suffix).filter pemKeep).flatten := by
  induction fuel with
  | zero =>
    intro s suffix hlen hns
    have hs : s = [] := List.eq_nil_of_length_eq_zero (by omega)
    subst hs
    simp [chunksAux]
  | succ fuel ih =>
    intro s suffix hlen hns
    rw [chunksAux]
    by_cases hs : s = []
    · subst hs
      simp
    · rw [if_neg hs]
      have h10 : 10 ∉ s.take 64 := fun hmem =>
        (hns _ (List.mem_of_mem_take hmem)).1 rfl
      rw [List.append_assoc, List.cons_append, splitLines_append _ _ h10]
      have hkeep : pemKeep (s.take 64) = true := by
        unfold pemKeep
        have hne : s.take 64 ≠ [] := by
          rw [Ne, List.take_eq_nil_iff]
          push_neg
          exact ⟨by omega, hs⟩
        have hnd : (s.take 64).take 5 ≠ dashes5 := by
          intro heq
          have h45 : 45 ∈ (s.take 64).take 5 := by
            rw [heq]
            simp [dashes5]
          have : 45 ∈ s := List.mem_of_mem_take (List.mem_of_mem_take h45)
          exact (hns 45 this).2 rfl
        simp [hne, hnd]
      rw [List.filter_cons, if_pos hkeep, List.flatten_cons]
      rw [ih (s.drop 64) suffix
        (by rw [List.length_drop]; omega)
        (fun ch hch => hns ch (List.mem_of_mem_drop hch))]
      rw [← List.append_assoc, List.take_append_drop]

theorem splitLines_nil : splitLines [] = [[]] := rfl

theorem unpem_topem (d label : List ℕ) (hd : ∀ b ∈ d, b < 256)
    (hlabel : 10 ∉ label) :
    unpem (topem d label) = d := by
  have hbl10 : 10 ∉ pemBeginLine label := by
    unfold pemBeginLine
    intro hmem
    simp only [List.mem_append] at hmem
    rcases hmem with ((h | h) | h) | h
    · exact absurd h (by decide)
    · exact absurd h (by decide)
    · exact hlabel h
    · exact absurd h (by decide)
  have hel10 : 10 ∉ pemEndLine label := by
    unfold pemEndLine
    intro hmem
    simp only [List.mem_append] at hmem
    rcases hmem with ((h | h) | h) | h
    · exact absurd h (by decide)
    · exact absurd h (by decide)
    · exact hlabel h
    · exact absurd h (by decide)
  unfold unpem topem
  have hshape : ((pemBeginLine label ++ (10 :: chunks64 (b64encode d))) ++
        pemEndLine label) ++ [10] =
      pemBeginLine label ++ (10 :: (chunks64 (b64encode d) ++
        (pemEndLine label ++ [10]))) := by
    simp [List.append_assoc]
  rw [hshape, splitLines_append _ _ hbl10, List.filter_cons,
    pemKeep_begin label]
  simp only [Bool.false_eq_true, if_false]
  unfold chunks64
  rw [chunksAux_join (b64encode d).length (b64encode d)
    (pemEndLine label ++ [10]) le_rfl (mem_b64encode_ne hd)]
  have hsuffix : splitLines (pemEndLine label ++ [10]) =
      pemEndLine label :: splitLines [] := splitLines_append _ _ hel10
  rw [hsuffix, splitLines_nil, List.filter_cons, pemKeep_end label]
  simp only [Bool.false_eq_true, if_false]
  have hempty : List.filter pemKeep [([] : List ℕ)] = [] := rfl
  rw [hempty]
  simp only [List.flatten_nil, List.append_nil]
  exact b64_roundtrip hd

theorem encode_length_length_le (l : ℕ) :
    (encode_length l).length ≤ 1 + byteLen l := by
  unfold encode_length
  split
  · simp
  · simp only [List.length_cons, bytesOfNat_length]
    omega

theorem mem_encode_length_lt {l b : ℕ} (hl : byteLen l ≤ 127)
    (hb : b ∈ encode_length l) : b < 256 := by
  unfold encode_length at hb
  split at hb
  · simp at hb
    omega
  · simp only [List.mem_cons] at hb
    rcases hb with h | h
    · rw [bytesOfNat_length] at h
      omega
    · exact mem_bigEndian_lt h

theorem mem_encode_tlv_lt {t b : ℕ} {c : List ℕ} (ht : t < 256)
    (hc : ∀ x ∈ c, x < 256) (hl : byteLen c.length ≤ 127)
    (hb : b ∈ encode_tlv t c) : b < 256 := by
  unfold encode_tlv at hb
  rcases List.mem_cons.1 hb with h | h
  · omega
  · rcases List.mem_append.1 h with h1 | h1
    · exact mem_encode_length_lt hl h1
    · exact hc b h1

theorem encode_tlv_length_le (t : ℕ) (c : List ℕ) :
    (encode_tlv t c).length ≤ 2 + byteLen c.length + c.length := by
  unfold encode_tlv
  simp only [List.length_cons, List.length_append]
  have := encode_length_length_le c.length
  omega

theorem byteLen_le127 {n : ℕ} (h : n ≤ 100000) : byteLen n ≤ 127 := by
  apply byteLen_le (by norm_num)
  have h3 : (256 : ℕ) ^ 3 ≤ 256 ^ 127 := Nat.pow_le_pow_right (by norm_num)
    (by norm_num)
  have : (256 : ℕ) ^ 3 = 16777216 := by norm_num
  omega

theorem vk_to_string_length_le (vk : VerifyingKey)
    (enc : VerifyingKey.PointEncoding) :
    (vk.to_string enc).length ≤ 2 * vk.curve.baselen + 1 := by
  have hraw : vk.raw_encode.length = 2 * vk.curve.baselen := by
    unfold VerifyingKey.raw_encode
    rw [List.length_append, nts_length, nts_length]
    omega
  cases enc with
  | raw =>
    show vk.raw_encode.length ≤ _
    omega
  | uncompressed =>
    show (4 :: vk.raw_encode).length ≤ _
    simp only [List.length_cons]
    omega
  | compressed =>
    show vk.compressed_encode.length ≤ _
    unfold VerifyingKey.compressed_encode
    split <;> simp only [List.length_cons, nts_length] <;> omega
  | hybrid =>
    show vk.hybrid_encode.length ≤ _
    unfold VerifyingKey.hybrid_encode
    split <;> simp only [List.length_cons, hraw] <;> omega

theorem mem_vk_to_string_lt (vk : VerifyingKey)
    (enc : VerifyingKey.PointEncoding) :
    ∀ b ∈ vk.to_string enc, b < 256 := by
  have hraw : ∀ b ∈ vk.raw_encode, b < 256 := by
    intro b hb
    unfold VerifyingKey.raw_encode at hb
    rcases List.mem_append.1 hb with h | h
    · exact mem_bigEndian_lt h
    · exact mem_bigEndian_lt h
  intro b hb
  cases enc with
  | raw => exact hraw b hb
  | uncompressed =>
    have hb2 : b ∈ 4 :: vk.raw_encode := hb
    rcases List.mem_cons.1 hb2 with h | h
    · omega
    · exact hraw b h
  | compressed =>
    have hb2 : b ∈ (if vk.point.2 % 2 = 1 then
        3 :: number_to_string vk.point.1 vk.curve.order
      else 2 :: number_to_string vk.point.1 vk.curve.order) := hb
    split at hb2 <;> rcases List.mem_cons.1 hb2 with h | h
    · omega
    · exact mem_bigEndian_lt h
    · omega
    · exact mem_bigEndian_lt h
  | hybrid =>
    have hb2 : b ∈ (if vk.point.2 % 2 = 1 then 7 :: vk.raw_encode
      else 6 :: vk.raw_encode) := hb
    split at hb2 <;> rcases List.mem_cons.1 hb2 with h | h
    · omega
    · exact hraw b h
    · omega
    · exact hraw b h

theorem to_der_bytes_lt (sk : SigningKey) (enc : VerifyingKey.PointEncoding)
    (Hord : sk.curve.order < 256 ^ 100)
    (Hoidb : ∀ b ∈ sk.curve.oid, b < 256)
    (Hoidl : sk.curve.oid.length ≤ 127) :
    ∀ b ∈ sk.to_der enc, b < 256 := by
  have hbl : sk.curve.baselen ≤ 100 :=
    byteLen_le (by norm_num) Hord
  have hts_len : sk.to_string.length = sk.curve.baselen := nts_length _ _
  have hts_mem : ∀ b ∈ sk.to_string, b < 256 := fun b hb =>
    mem_bigEndian_lt hb
  have hvs_len := vk_to_string_length_le (sk.get_verifying_key) enc
  have hvs_curve : (sk.get_verifying_key).curve = sk.curve := rfl
  rw [hvs_curve] at hvs_len
  have hvs_mem := mem_vk_to_string_lt (sk.get_verifying_key) enc
  -- the inner object identifier block
  have hoid_mem : ∀ b ∈ sk.curve.encoded_oid, b < 256 := by
    intro b hb
    exact mem_encode_tlv_lt (by norm_num) Hoidb (byteLen_le127 (by omega)) hb
  have hoid_len : sk.curve.encoded_oid.length ≤ 2 + 127 + 127 := by
    have := encode_tlv_length_le 6 sk.curve.oid
    have := byteLen_le127 (show sk.curve.oid.length ≤ 100000 by omega)
    unfold Curve.encoded_oid
    omega
  -- the bit string holding the public key
  have hbs_mem : ∀ b ∈ encode_bitstring
      (0 :: (sk.get_verifying_key).to_string enc), b < 256 := by
    intro b hb
    apply mem_encode_tlv_lt (by norm_num) ?_ ?_ hb
    · intro x hx
      rcases List.mem_cons.1 hx with h | h
      · omega
      · exact hvs_mem x h
    · apply byteLen_le127
      simp only [List.length_cons]
      omega
  have hbs_len : (encode_bitstring
      (0 :: (sk.get_verifying_key).to_string enc)).length ≤ 2 + 127 + 202 := by
    have := encode_tlv_length_le 3 (0 :: (sk.get_verifying_key).to_string enc)
    have hb2 : (0 :: (sk.get_verifying_key).to_string enc).length ≤ 202 := by
      simp only [List.length_cons]
      omega
    have := byteLen_le127 (show (0 :: (sk.get_verifying_key).to_string
      enc).length ≤ 100000 by omega)
    unfold encode_bitstring
    omega
  -- the four top-level fields
  have hf1 : encode_integer 1 = [2, 1, 1] := rfl
  have hf2_mem : ∀ b ∈ encode_octet_string sk.to_string, b < 256 := by
    intro b hb
    exact mem_encode_tlv_lt (by norm_num) hts_mem
      (byteLen_le127 (by omega)) hb
  have hf2_len : (encode_octet_string sk.to_string).length ≤ 2 + 127 + 100 := by
    have := encode_tlv_length_le 4 sk.to_string
    have := byteLen_le127 (show sk.to_string.length ≤ 100000 by omega)
    unfold encode_octet_string
    omega
  have hf3_mem : ∀ b ∈ encode_constructed 0 sk.curve.encoded_oid, b < 256 := by
    intro b hb
    exact mem_encode_tlv_lt (by norm_num) hoid_mem
      (byteLen_le127 (by omega)) hb
  have hf3_len : (encode_constructed 0 sk.curve.encoded_oid).length
      ≤ 2 + 127 + 256 := by
    have := encode_tlv_length_le (160 + 0) sk.curve.encoded_oid
    have := byteLen_le127 (show sk.curve.encoded_oid.length ≤ 100000 by omega)
    unfold encode_constructed
    omega
  have hf4_mem : ∀ b ∈ encode_constructed 1 (encode_bitstring
      (0 :: (sk.get_verifying_key).to_string enc)), b < 256 := by
    intro b hb
    exact mem_encode_tlv_lt (by norm_num) hbs_mem
      (byteLen_le127 (by omega)) hb
  have hf4_len : (encode_constructed 1 (encode_bitstring
      (0 :: (sk.get_verifying_key).to_string enc))).length
      ≤ 2 + 127 + 331 := by
    have := encode_tlv_length_le (160 + 1) (encode_bitstring
      (0 :: (sk.get_verifying_key).to_string enc))
    have := byteLen_le127 (show (encode_bitstring
      (0 :: (sk.get_verifying_key).to_string enc)).length ≤ 100000 by omega)
    unfold encode_constructed
    omega
  intro b hb
  unfold SigningKey.to_der at hb
  apply mem_encode_tlv_lt (by norm_num) ?_ ?_ hb
  · intro x hx
    simp only [List.mem_append] at hx
    rcases hx with ((h | h) | h) | h
    · rw [hf1] at h
      simp at h
      omega
    · exact hf2_mem x h
    · exact hf3_mem x h
    · exact hf4_mem x h
  · apply byteLen_le127
    simp only [List.length_append]
    rw [hf1]
    simp only [List.length_cons, List.length_nil]
    omega

theorem topem_shape (d label : List ℕ) :
    topem d label = pemBeginLine label ++ (10 :: (chunks64 (b64encode d) ++
      (pemEndLine label ++ [10]))) := by
  unfold topem
  simp [List.append_assoc]

theorem firstIndexOf_zero {needle s : List ℕ} (h : needle <+: s) :
    firstIndexOf needle s = some 0 := by
  cases s with
  | nil =>
    have hn : needle = [] := List.prefix_nil.1 h
    rw [firstIndexOf, if_pos hn]
  | cons a t =>
    rw [firstIndexOf, if_pos (List.isPrefixOf_iff_prefix.2 h)]

/-- Claim C6: the DER and PEM serialization round trips for signing keys:
`from_der (to_der sk)` and `from_pem (to_pem sk)` succeed and return a
signing key with the same curve and the same secret scalar (the very same
`SigningKey` value, hence identical `to_string` bytes), for any secret
scalar in `[1, n-1]`, any registered curve with byte-valued object
identifier of DER-encodable size and order below `256^100` (every real
curve), and any public-point encoding re-emitted in the DER. -/
theorem C6_sk_key_roundtrip (registry : List Curve) (sk : SigningKey)
    (enc : VerifyingKey.PointEncoding)
    (hreg : find_curve registry sk.curve.oid = some sk.curve)
    (hd1 : 1 ≤ sk.secexp) (hd2 : sk.secexp < sk.curve.order)
    (Hord : sk.curve.order < 256 ^ 100)
    (Hoidb : ∀ b ∈ sk.curve.oid, b < 256)
    (Hoidl : sk.curve.oid.length ≤ 127) :
    SigningKey.from_der registry (sk.to_der enc) = .ok sk
    ∧ SigningKey.from_pem registry (sk.to_pem enc) = .ok sk := by
  have hder := SigningKey_der_roundtrip registry sk enc hreg hd1 hd2
  refine ⟨hder, ?_⟩
  unfold SigningKey.from_pem SigningKey.to_pem
  have hpre : pemBeginLine ecPrivateKeyLabel <+:
      topem (sk.to_der enc) ecPrivateKeyLabel := by
    rw [topem_shape]
    exact List.prefix_append _ _
  rw [firstIndexOf_zero hpre]
  simp only []
  rw [List.drop_zero,
    unpem_topem _ _ (to_der_bytes_lt sk enc Hord Hoidb Hoidl) (by decide)]
  exact hder

/-- Witness for C6 at the toy curve. -/
theorem C6_sk_key_roundtrip_witness :
    SigningKey.from_der [toyCurve] (toySK.to_der .uncompressed) = .ok toySK
    ∧ SigningKey.from_pem [toyCurve] (toySK.to_pem .uncompressed)
      = .ok toySK :=
  C6_sk_key_roundtrip [toyCurve] toySK .uncompressed (by decide) (by decide)
    (by decide)
    (by
      show (283 : ℕ) < 256 ^ 100
      calc (283 : ℕ) < 256 ^ 2 := by norm_num
        _ ≤ 256 ^ 100 := Nat.pow_le_pow_right (by norm_num) (by norm_num))
    (by decide) (by decide)
